import Mathlib

/-!
Smooth weighted round-robin selector (Go package `weighted`, file smooth_weighted.go).

Shallow embedding of the selector `SW` and of its operations, followed by the
properties of the specification that were checked against it.

Modelling conventions.

* Go `int` values are integers (`Int`). The arithmetic of a selection round goes
  through a function `int` that reduces an exact result to the type: `int64` is the
  Go type on a 64-bit platform (wrap-around), `unbounded` is the arithmetic of
  unbounded integers. A property stated for every `int` holds for both.
* A slot of `SW.items` (type `[]*smoothWeighted`) is modelled by the value of the
  record it points to. `Add` is the only operation that stores a pointer and it
  stores a fresh allocation, so slots never alias and are never nil; the mutation
  of a record through its pointer is the replacement of the slot's value.
* The stored count `SW.n` is a field of its own, independent of the length of
  `SW.items`, exactly as in the source (`nextWeighted` branches on `n`).
* A run-time panic (index out of range in `w.items[0]`) is the result `none`.
-/

namespace Weighted

/-- Dynamic value of a Go `interface{}` used as the identity of a candidate:
the nil interface, a string, or any other comparable value (tagged by a number). -/
inductive Iface where
  | nil : Iface
  | str (s : String) : Iface
  | other (k : Nat) : Iface
  deriving DecidableEq, Repr

/-- Record `smoothWeighted`: a wrapped weighted item. -/
structure smoothWeighted where
  Item : Iface
  Weight : Int
  CurrentWeight : Int
  EffectiveWeight : Int
  deriving DecidableEq, Repr

/-- Record `SW`: the ordered entries and the stored count. -/
structure SW where
  items : List smoothWeighted
  n : Int
  deriving DecidableEq, Repr

/-- Record `WeightItem`: one update of `SetWeight`. -/
structure WeightItem where
  ID : String
  Weight : Int
  deriving DecidableEq, Repr

/-- The zero value `&SW{}`: no entries, count 0. -/
def SW.empty : SW := { items := [], n := 0 }

/-- Method `Add`: append a fresh entry with `Weight = EffectiveWeight = weight`
(and `CurrentWeight` left at its zero value), then `n++`. -/
def SW.Add (w : SW) (item : Iface) (weight : Int) : SW :=
  let weighted : smoothWeighted :=
    { Item := item, Weight := weight, CurrentWeight := 0, EffectiveWeight := weight }
  { items := w.items ++ [weighted], n := w.n + 1 }

/-- Method `remove(i)`: `append(items[:i], items[i+1:]...)`, then `n--`. -/
def SW.remove (w : SW) (i : Nat) : SW :=
  { items := w.items.take i ++ w.items.drop (i + 1), n := w.n - 1 }

/-- Method `Remove`: scan for the first entry whose `Item` equals `rmItem`;
remove it and return; do nothing when the scan finds none. -/
def SW.Remove (w : SW) (rmItem : Iface) : SW :=
  match w.items.findIdx? (fun item => decide (item.Item = rmItem)) with
  | some i => w.remove i
  | none => w

/-- Method `RemoveAll`: `items = items[:0]`, `n = 0`. -/
def SW.RemoveAll (_w : SW) : SW := { items := [], n := 0 }

/-- Method `Reset`: for every entry `EffectiveWeight = Weight`, `CurrentWeight = 0`. -/
def SW.Reset (w : SW) : SW :=
  { w with items := w.items.map (fun s =>
      { s with EffectiveWeight := s.Weight, CurrentWeight := 0 }) }

/-- Inner loop of `SetWeight` ("set old item") for one update `setItem`, over the
entries in order. `none`: no entry matched (the outer loop goes on to `Add`).
`some (items, marked)`: the first matching entry was reached and the outer loop
continues with the next update; when `setItem.Weight >= 1` that entry got the new
`Weight` and `EffectiveWeight` and the identity was marked as kept. -/
def SW.setOld (setItem : WeightItem) :
    List smoothWeighted → Option (List smoothWeighted × Bool)
  | [] => none
  | item :: rest =>
    if item.Item = Iface.str setItem.ID then
      if 1 ≤ setItem.Weight then
        some ({ item with Weight := setItem.Weight,
                          EffectiveWeight := setItem.Weight } :: rest, true)
      else
        some (item :: rest, false)
    else
      match SW.setOld setItem rest with
      | some (rest1, marked) => some (item :: rest1, marked)
      | none => none

/-- One iteration of the outer loop of `SetWeight` on the pair
(selector, `keptItems`); the hash set is modelled by the list of its members. -/
def SW.setOne (st : SW × List Iface) (setItem : WeightItem) : SW × List Iface :=
  match SW.setOld setItem st.1.items with
  | some (items1, true) => ({ st.1 with items := items1 }, st.2 ++ [Iface.str setItem.ID])
  | some (_, false) => st
  | none => (st.1.Add (Iface.str setItem.ID) setItem.Weight, st.2 ++ [Iface.str setItem.ID])

/-- First part of `SetWeight`: the outer loop over the updates, starting with an
empty `keptItems`. -/
def SW.setLoop (w : SW) (items : List WeightItem) : SW × List Iface :=
  items.foldl SW.setOne (w, [])

/-- The slice `rmItems` of `SetWeight`: the identities of the entries whose
identity is not in `keptItems`, in entry order (one per entry). -/
def SW.rmItems (w : SW) (keptItems : List Iface) : List Iface :=
  (w.items.filter (fun item => decide (item.Item ∉ keptItems))).map (fun item => item.Item)

/-- Method `SetWeight`: the update loop, then `Remove` of every collected dead identity. -/
def SW.SetWeight (w : SW) (items : List WeightItem) : SW :=
  let st := w.setLoop items
  (st.1.rmItems st.2).foldl SW.Remove st.1

/-- Unbounded integers: an exact result is kept as it is. -/
def unbounded (x : Int) : Int := x

/-- The Go type `int` of a 64-bit platform: an exact result is reduced to the
range from -2^63 to 2^63 - 1 by two's complement wrap-around. -/
def int64 (x : Int) : Int :=
  (x + 9223372036854775808) % 18446744073709551616 - 9223372036854775808

/-- Body of the loop of `nextSmoothWeighted` on one entry:
`CurrentWeight += EffectiveWeight`, then `EffectiveWeight++` when it is below `Weight`.
The argument `int` reduces the exact sum to the type `int` (`int64` for the Go
type, `unbounded` for unbounded integers); the increment is taken only below
`Weight`, so it cannot leave the range. -/
def bump (int : Int → Int) (w : smoothWeighted) : smoothWeighted :=
  let w1 := { w with CurrentWeight := int (w.CurrentWeight + w.EffectiveWeight) }
  if w1.EffectiveWeight < w1.Weight then
    { w1 with EffectiveWeight := w1.EffectiveWeight + 1 }
  else w1

/-- The update `if best == nil || w.CurrentWeight > best.CurrentWeight { best = w }`;
`best` is the position of the entry pointed to together with its (already
updated) value. -/
def pickBest (best : Option (Nat × smoothWeighted)) (i : Nat) (w : smoothWeighted) :
    Option (Nat × smoothWeighted) :=
  match best with
  | none => some (i, w)
  | some (j, b) => if w.CurrentWeight > b.CurrentWeight then some (i, w) else some (j, b)

/-- Loop of `nextSmoothWeighted` from position `i` with the running `total` and
`best`; returns the updated entries, the final `total` and the final `best`.
`total += w.EffectiveWeight` is reduced by `int`. -/
def nextSmoothWeightedLoop (int : Int → Int) :
    List smoothWeighted → Nat → Int → Option (Nat × smoothWeighted) →
      List smoothWeighted × Int × Option (Nat × smoothWeighted)
  | [], _, total, best => ([], total, best)
  | w :: rest, i, total, best =>
    let w1 := bump int w
    let r := nextSmoothWeightedLoop int rest (i + 1) (int (total + w.EffectiveWeight))
      (pickBest best i w1)
    (w1 :: r.1, r.2.1, r.2.2)

/-- Function `nextSmoothWeighted`: one selection round. Returns the value of the
entry pointed to by the result (`none` for the nil pointer) and the entries after
the round; the winner had `total` subtracted from its `CurrentWeight`, the
difference reduced by `int`. -/
def nextSmoothWeighted (int : Int → Int) (items : List smoothWeighted) :
    Option smoothWeighted × List smoothWeighted :=
  let r := nextSmoothWeightedLoop int items 0 0 none
  match r.2.2 with
  | none => (none, r.1)
  | some (i, b) =>
    let b1 := { b with CurrentWeight := int (b.CurrentWeight - r.2.1) }
    (some b1, r.1.set i b1)

/-- Method `nextWeighted`: nil when `n == 0`, `items[0]` when `n == 1` (a panic,
`none`, when there is no such slot), otherwise one selection round. -/
def SW.nextWeighted (int : Int → Int) (w : SW) : Option (Option smoothWeighted × SW) :=
  if w.n = 0 then some (none, w)
  else if w.n = 1 then
    match w.items with
    | [] => none
    | item :: _ => some (some item, w)
  else
    let r := nextSmoothWeighted int w.items
    some (r.1, { w with items := r.2 })

/-- Method `Next`: the `Item` of the selected entry, or the nil interface when
`nextWeighted` returns nil; `none` when the call panics. -/
def SW.Next (int : Int → Int) (w : SW) : Option (Iface × SW) :=
  match w.nextWeighted int with
  | none => none
  | some (none, w1) => some (Iface.nil, w1)
  | some (some i, w1) => some (i.Item, w1)

/-- The loop of the tests: `k` successive calls of `Next`, collecting the results
in call order; `none` when one of the calls panics. -/
def SW.NextN (int : Int → Int) : Nat → SW → Option (List Iface × SW)
  | 0, w => some ([], w)
  | k + 1, w =>
    match w.Next int with
    | none => none
    | some (r, w1) =>
      match SW.NextN int k w1 with
      | none => none
      | some (rs, w2) => some (r :: rs, w2)

/-- A selector built from the empty selector by `Add` calls only, one call per
pair (identity, weight), in list order. -/
def SW.build (adds : List (Iface × Int)) : SW :=
  adds.foldl (fun w p => w.Add p.1 p.2) SW.empty

/-- The entry stored by `Add item weight`. -/
def fresh (p : Iface × Int) : smoothWeighted :=
  { Item := p.1, Weight := p.2, CurrentWeight := 0, EffectiveWeight := p.2 }

/-- The value of the winner of a round after the round: the loop body applied,
then `total` subtracted from `CurrentWeight`. -/
def settle (int : Int → Int) (total : Int) (x : smoothWeighted) : smoothWeighted :=
  { bump int x with CurrentWeight := int ((bump int x).CurrentWeight - total) }

/-- Sum of the `EffectiveWeight` fields over unbounded integers. -/
def totalEffective (l : List smoothWeighted) : Int :=
  (l.map (fun e => e.EffectiveWeight)).sum

/-- The reduction `int` keeps every integer between `-B` and `B`: no sum in that
range wraps. -/
def KeepsRange (int : Int → Int) (B : Int) : Prop :=
  ∀ x, -B ≤ x → x ≤ B → int x = x

/-- The `total` computed by a round from the starting value `t`: the running sum
of the `EffectiveWeight` fields, each step reduced by `int`. -/
def totalInt (int : Int → Int) (t : Int) (l : List smoothWeighted) : Int :=
  l.foldl (fun acc e => int (acc + e.EffectiveWeight)) t

/-- The part of an entry that `Next` and `Reset` never write: identity and weight. -/
def frame (e : smoothWeighted) : Iface × Int := (e.Item, e.Weight)

/-- The entries of `l` whose identity is `i`, in order. -/
def focus (i : Iface) (l : List smoothWeighted) : List smoothWeighted :=
  l.filter (fun e => decide (e.Item = i))

/-- The assignment `item.Weight = v; item.EffectiveWeight = v` of `SetWeight`. -/
def assign (v : Int) (e : smoothWeighted) : smoothWeighted :=
  { e with Weight := v, EffectiveWeight := v }

/-- Effect of one update `u` of `SetWeight` on the entries of identity `i` and on
the membership of `i` in `keptItems`. -/
def focusStep (i : Iface) (st : List smoothWeighted × Bool) (u : WeightItem) :
    List smoothWeighted × Bool :=
  if Iface.str u.ID = i then
    match st.1 with
    | [] => ([fresh (i, u.Weight)], true)
    | a :: r => if 1 ≤ u.Weight then (assign u.Weight a :: r, true) else (a :: r, st.2)
  else st

/-- The selector that the specification describes as the result of `SetWeight`
on a selector built from `adds`: first every pre-existing identity that the update
list names with a weight >= 1, in original order, with the weight of the update;
then every update whose ID was not pre-existing, in update order, with its weight. -/
def reconciled (adds : List (String × Int)) (ups : List WeightItem) : List (Iface × Int) :=
  adds.filterMap (fun p =>
    match ups.find? (fun u => decide (u.ID = p.1)) with
    | some u => if 1 ≤ u.Weight then some (Iface.str p.1, u.Weight) else none
    | none => none)
  ++ (ups.filter (fun u => decide (u.ID ∉ adds.map Prod.fst))).map
      (fun u => (Iface.str u.ID, u.Weight))

/-- Sum of the `CurrentWeight` fields. -/
def totalCurrent (l : List smoothWeighted) : Int :=
  (l.map (fun e => e.CurrentWeight)).sum

/-- Invariant of the selection rounds on a selector built by `Add` with weights
>= 1 and pairwise distinct identities, after the results `hist`: effective weights
equal the weights, their total is `T`, the current weights sum to zero, and each
current weight is above `-T` and equals (number of rounds) * weight minus
(number of wins) * `T`. -/
def Balanced (T : Int) (hist : List Iface) (items : List smoothWeighted) : Prop :=
  1 ≤ T ∧
  (∀ e ∈ items, e.EffectiveWeight = e.Weight ∧ 1 ≤ e.Weight) ∧
  totalEffective items = T ∧
  totalCurrent items = 0 ∧
  (∀ e ∈ items, -T < e.CurrentWeight ∧
    e.CurrentWeight = (hist.length : Int) * e.Weight - (hist.count e.Item : Int) * T) ∧
  (items.map (fun e => e.Item)).Nodup

/-- One call of a method of the selector by its user. -/
inductive Op where
  | Add (item : Iface) (weight : Int) : Op
  | Remove (rmItem : Iface) : Op
  | RemoveAll : Op
  | Reset : Op
  | SetWeight (items : List WeightItem) : Op
  | Next : Op
  deriving DecidableEq, Repr

/-- Effect of one call: the results returned (one for `Next`, none for the other
methods) and the selector after it; `none` when the call panics. -/
def SW.call (int : Int → Int) (w : SW) : Op → Option (List Iface × SW)
  | Op.Add item weight => some ([], w.Add item weight)
  | Op.Remove rmItem => some ([], w.Remove rmItem)
  | Op.RemoveAll => some ([], w.RemoveAll)
  | Op.Reset => some ([], w.Reset)
  | Op.SetWeight items => some ([], w.SetWeight items)
  | Op.Next =>
    match w.Next int with
    | none => none
    | some (r, w1) => some ([r], w1)

/-- A sequence of calls, in order: the results of its `Next` calls and the final
selector; `none` when one of the calls panics. -/
def SW.calls (int : Int → Int) : List Op → SW → Option (List Iface × SW)
  | [], w => some ([], w)
  | op :: rest, w =>
    match w.call int op with
    | none => none
    | some (r, w1) =>
      match SW.calls int rest w1 with
      | none => none
      | some (rs, w2) => some (r ++ rs, w2)

/-! ## Basic facts about the operations -/

theorem build_append (adds : List (Iface × Int)) (p : Iface × Int) :
    SW.build (adds ++ [p]) = (SW.build adds).Add p.1 p.2 := by
  simp [SW.build, List.foldl_append]

theorem build_eq (adds : List (Iface × Int)) :
    SW.build adds = { items := adds.map fresh, n := adds.length } := by
  induction adds using List.reverseRecOn with
  | nil => rfl
  | append_singleton l p ih =>
    rw [build_append, ih]
    simp [SW.Add, fresh]

theorem loop_entries {int : Int → Int} (l : List smoothWeighted) (i : Nat) (t : Int)
    (best : Option (Nat × smoothWeighted)) :
    (nextSmoothWeightedLoop int l i t best).1 = l.map (bump int) := by
  induction l generalizing i t best with
  | nil => rfl
  | cons w rest ih => simp [nextSmoothWeightedLoop, ih]

theorem loop_total {int : Int → Int} (l : List smoothWeighted) (i : Nat) (t : Int)
    (best : Option (Nat × smoothWeighted)) :
    (nextSmoothWeightedLoop int l i t best).2.1 = totalInt int t l := by
  induction l generalizing i t best with
  | nil => simp [nextSmoothWeightedLoop, totalInt]
  | cons w rest ih =>
    simp only [nextSmoothWeightedLoop, ih]
    simp [totalInt]

theorem totalInt_unbounded (t : Int) (l : List smoothWeighted) :
    totalInt unbounded t l = t + totalEffective l := by
  induction l generalizing t with
  | nil => simp [totalInt, totalEffective]
  | cons w rest ih =>
    have := ih (t + w.EffectiveWeight)
    simp only [totalInt, List.foldl_cons, unbounded] at this ⊢
    rw [this]
    simp [totalEffective, add_assoc]

/-- The final `best` of the loop: either the incoming one, which no entry beat, or
the first entry of the scanned part that attains the greatest updated
`CurrentWeight` and beats the incoming one. -/
theorem loop_best {int : Int → Int} (l : List smoothWeighted) (i : Nat) (t : Int)
    (best : Option (Nat × smoothWeighted)) :
    ((nextSmoothWeightedLoop int l i t best).2.2 = best ∧
      (l = [] ∨ ∃ j b, best = some (j, b) ∧
        ∀ e ∈ l, (bump int e).CurrentWeight ≤ b.CurrentWeight)) ∨
    (∃ pre x post, l = pre ++ x :: post ∧
      (nextSmoothWeightedLoop int l i t best).2.2 = some (i + pre.length, bump int x) ∧
      (∀ e ∈ pre, (bump int e).CurrentWeight < (bump int x).CurrentWeight) ∧
      (∀ e ∈ post, (bump int e).CurrentWeight ≤ (bump int x).CurrentWeight) ∧
      (∀ j b, best = some (j, b) → b.CurrentWeight < (bump int x).CurrentWeight)) := by
  induction l generalizing i t best with
  | nil => left; exact ⟨rfl, Or.inl rfl⟩
  | cons w rest ih =>
    simp only [nextSmoothWeightedLoop]
    rcases ih (i + 1) (int (t + w.EffectiveWeight)) (pickBest best i (bump int w)) with
      ⟨hr, hrest⟩ | ⟨pre, x, post, hl, hr, hpre, hpost, hbest⟩
    · -- nothing in the rest beat the best after `w`
      cases best with
      | none =>
        right
        refine ⟨[], w, rest, rfl, ?_, ?_, ?_, ?_⟩
        · rw [hr]; simp [pickBest]
        · intro e he; cases he
        · rcases hrest with h | ⟨j, b, hb, hall⟩
          · subst h; intro e he; cases he
          · simp only [pickBest, Option.some.injEq, Prod.mk.injEq] at hb
            obtain ⟨-, rfl⟩ := hb
            exact hall
        · intro j b hb; cases hb
      | some jb =>
        obtain ⟨j, b⟩ := jb
        by_cases hgt : (bump int w).CurrentWeight > b.CurrentWeight
        · right
          have hp : pickBest (some (j, b)) i (bump int w) = some (i, bump int w) := by
            simp [pickBest, hgt]
          refine ⟨[], w, rest, rfl, ?_, ?_, ?_, ?_⟩
          · rw [hr, hp]; simp
          · intro e he; cases he
          · rcases hrest with h | ⟨j2, b2, hb, hall⟩
            · subst h; intro e he; cases he
            · rw [hp] at hb
              simp only [Option.some.injEq, Prod.mk.injEq] at hb
              obtain ⟨-, rfl⟩ := hb
              exact hall
          · intro j2 b2 hb
            simp only [Option.some.injEq, Prod.mk.injEq] at hb
            obtain ⟨-, rfl⟩ := hb
            exact hgt
        · left
          have hp : pickBest (some (j, b)) i (bump int w) = some (j, b) := by
            simp [pickBest, hgt]
          refine ⟨by rw [hr, hp], Or.inr ⟨j, b, rfl, ?_⟩⟩
          intro e he
          rcases List.mem_cons.mp he with rfl | he
          · exact not_lt.mp hgt
          · rcases hrest with h | ⟨j2, b2, hb, hall⟩
            · subst h; cases he
            · rw [hp] at hb
              simp only [Option.some.injEq, Prod.mk.injEq] at hb
              obtain ⟨-, rfl⟩ := hb
              exact hall e he
    · -- an entry `x` of the rest is the final best
      right
      refine ⟨w :: pre, x, post, by simp [hl], ?_, ?_, hpost, ?_⟩
      · rw [hr]; simp; omega
      · intro e he
        rcases List.mem_cons.mp he with rfl | he
        · cases best with
          | none => exact hbest i (bump int e) (by simp [pickBest])
          | some jb =>
            obtain ⟨j, b⟩ := jb
            by_cases hgt : (bump int e).CurrentWeight > b.CurrentWeight
            · exact hbest i (bump int e) (by simp [pickBest, hgt])
            · have := hbest j b (by simp [pickBest, hgt])
              exact lt_of_le_of_lt (not_lt.mp hgt) this
        · exact hpre e he
      · intro j b hb
        subst hb
        by_cases hgt : (bump int w).CurrentWeight > b.CurrentWeight
        · have := hbest i (bump int w) (by simp [pickBest, hgt])
          exact lt_trans hgt this
        · exact hbest j b (by simp [pickBest, hgt])

/-- One selection round on a non-empty list: the winner `x` is the first entry
whose updated `CurrentWeight` is greatest; every entry gets the loop body and the
winner additionally loses the total of the effective weights. -/
theorem nextSmoothWeighted_spec {int : Int → Int} (l : List smoothWeighted) (hl : l ≠ []) :
    ∃ pre x post, l = pre ++ x :: post ∧
      nextSmoothWeighted int l
        = (some (settle int (totalInt int 0 l) x),
           pre.map (bump int) ++ settle int (totalInt int 0 l) x :: post.map (bump int)) ∧
      (∀ e ∈ pre, (bump int e).CurrentWeight < (bump int x).CurrentWeight) ∧
      (∀ e ∈ post, (bump int e).CurrentWeight ≤ (bump int x).CurrentWeight) := by
  rcases loop_best l 0 0 none with ⟨-, h⟩ | ⟨pre, x, post, hdec, hr, hpre, hpost, -⟩
  · rcases h with h | ⟨j, b, hb, -⟩
    · exact absurd h hl
    · cases hb
  · refine ⟨pre, x, post, hdec, ?_, hpre, hpost⟩
    simp only [nextSmoothWeighted, hr, loop_entries, loop_total]
    simp only [settle, Prod.mk.injEq, true_and]
    rw [hdec]
    simp [List.set_append]

theorem nextSmoothWeighted_nil {int : Int → Int} : nextSmoothWeighted int [] = (none, []) := rfl

theorem bump_Item {int : Int → Int} (e : smoothWeighted) : (bump int e).Item = e.Item := by
  simp only [bump]; split_ifs <;> rfl

theorem bump_Weight {int : Int → Int} (e : smoothWeighted) : (bump int e).Weight = e.Weight := by
  simp only [bump]; split_ifs <;> rfl

theorem bump_CurrentWeight {int : Int → Int} (e : smoothWeighted) :
    (bump int e).CurrentWeight = int (e.CurrentWeight + e.EffectiveWeight) := by
  simp only [bump]; split_ifs <;> rfl

theorem bump_EffectiveWeight {int : Int → Int} (e : smoothWeighted) (h : e.EffectiveWeight = e.Weight) :
    (bump int e).EffectiveWeight = e.EffectiveWeight := by
  simp only [bump]; split_ifs with hlt
  · omega
  · rfl

theorem frame_bump {int : Int → Int} (e : smoothWeighted) : frame (bump int e) = frame e := by
  simp [frame, bump_Item, bump_Weight]

theorem frame_settle {int : Int → Int} (t : Int) (e : smoothWeighted) : frame (settle int t e) = frame e := by
  have h := @frame_bump int e
  simp only [frame, Prod.mk.injEq] at h
  simp [settle, frame, h.1, h.2]

theorem map_frame_bump {int : Int → Int} (l : List smoothWeighted) : (l.map (bump int)).map frame = l.map frame := by
  simp [List.map_map, Function.comp_def, frame_bump]

/-- A round leaves identities, weights and order unchanged. -/
theorem nextSmoothWeighted_frame {int : Int → Int} (l : List smoothWeighted) :
    (nextSmoothWeighted int l).2.map frame = l.map frame := by
  by_cases hl : l = []
  · subst hl; rfl
  · obtain ⟨pre, x, post, hdec, hr, -, -⟩ := nextSmoothWeighted_spec l hl
    rw [hr]
    simp only [List.map_append, List.map_cons, map_frame_bump, frame_settle]
    rw [hdec]
    simp

/-- When the count is the number of entries, `Next` does not panic, and it keeps
the count, the identities, the weights and the order. -/
theorem next_frame {int : Int → Int} (s : SW) (hn : s.n = s.items.length) :
    ∃ r s1, s.Next int = some (r, s1) ∧ s1.n = s.n ∧ s1.items.map frame = s.items.map frame := by
  obtain ⟨items, n⟩ := s
  simp only at hn
  by_cases h0 : n = 0
  · exact ⟨Iface.nil, ⟨items, n⟩, by simp [SW.Next, SW.nextWeighted, h0], rfl, rfl⟩
  · by_cases h1 : n = 1
    · cases items with
      | nil => simp at hn; omega
      | cons e rest =>
        exact ⟨e.Item, ⟨e :: rest, n⟩, by simp [SW.Next, SW.nextWeighted, h1], rfl, rfl⟩
    · cases hb : (nextSmoothWeighted int items).1 with
      | none =>
        exact ⟨Iface.nil, ⟨(nextSmoothWeighted int items).2, n⟩,
          by simp [SW.Next, SW.nextWeighted, h0, h1, hb], rfl, nextSmoothWeighted_frame items⟩
      | some b =>
        exact ⟨b.Item, ⟨(nextSmoothWeighted int items).2, n⟩,
          by simp [SW.Next, SW.nextWeighted, h0, h1, hb], rfl, nextSmoothWeighted_frame items⟩

theorem nextN_frame {int : Int → Int} (k : Nat) (s : SW) (hn : s.n = s.items.length) :
    ∃ rs s1, SW.NextN int k s = some (rs, s1) ∧ rs.length = k ∧ s1.n = s.n ∧
      s1.items.map frame = s.items.map frame := by
  induction k generalizing s with
  | zero => exact ⟨[], s, rfl, rfl, rfl, rfl⟩
  | succ k ih =>
    obtain ⟨r, s1, hr, hn1, hf1⟩ := @next_frame int s hn
    have hlen : s1.items.length = s.items.length := by
      have := congrArg List.length hf1
      simpa using this
    obtain ⟨rs, s2, hrs, hl, hn2, hf2⟩ := ih s1 (by rw [hn1, hn, hlen])
    exact ⟨r :: rs, s2, by simp [SW.NextN, hr, hrs], by simp [hl], by rw [hn2, hn1],
      by rw [hf2, hf1]⟩

theorem reset_eq_of_frame (s : SW) :
    s.Reset = { items := (s.items.map frame).map fresh, n := s.n } := by
  simp [SW.Reset, List.map_map, Function.comp_def, frame, fresh]

theorem reset_build (adds : List (Iface × Int)) : (SW.build adds).Reset = SW.build adds := by
  rw [reset_eq_of_frame, build_eq]
  simp [List.map_map, Function.comp_def, frame, fresh]

/-! ## Remove and the pruning phase of SetWeight -/

theorem Remove_absent (w : SW) (x : Iface) (h : ∀ e ∈ w.items, e.Item ≠ x) :
    w.Remove x = w := by
  have : w.items.findIdx? (fun item => decide (item.Item = x)) = none := by
    rw [List.findIdx?_eq_none_iff]
    intro e he
    simpa using h e he
  simp [SW.Remove, this]

theorem Remove_first (pre post : List smoothWeighted) (d : smoothWeighted) (n : Int)
    (h : ∀ e ∈ pre, e.Item ≠ d.Item) :
    SW.Remove { items := pre ++ d :: post, n := n } d.Item
      = { items := pre ++ post, n := n - 1 } := by
  have hpre : pre.findIdx? (fun item => decide (item.Item = d.Item)) = none := by
    rw [List.findIdx?_eq_none_iff]
    intro e he
    simpa using h e he
  have : (pre ++ d :: post).findIdx? (fun item => decide (item.Item = d.Item))
      = some pre.length := by
    rw [List.findIdx?_append, hpre]
    simp
  simp [SW.Remove, this, SW.remove]

/-- The pruning phase: removing, one `Remove` per dead entry, the identities of the
entries whose identity is not kept leaves exactly the kept entries, in order, and
lowers the count by the number of dead entries. -/
theorem prune_aux (kept : List Iface) (l pre : List smoothWeighted) (n : Int)
    (hpre : ∀ e ∈ pre, e.Item ∈ kept) :
    ((l.filter (fun item => decide (item.Item ∉ kept))).map (fun item => item.Item)).foldl
        SW.Remove { items := pre ++ l, n := n }
      = { items := pre ++ l.filter (fun item => decide (item.Item ∈ kept)),
          n := n - ((l.filter (fun item => decide (item.Item ∉ kept))).length : Int) } := by
  induction l generalizing pre n with
  | nil => simp
  | cons a rest ih =>
    by_cases ha : a.Item ∈ kept
    · have := ih (pre ++ [a]) n (by
        intro e he
        rcases List.mem_append.mp he with he | he
        · exact hpre e he
        · simp at he; subst he; exact ha)
      simpa [ha] using this
    · have hrm : SW.Remove { items := pre ++ a :: rest, n := n } a.Item
          = { items := pre ++ rest, n := n - 1 } :=
        Remove_first pre rest a n (by
          intro e he heq
          exact ha (heq ▸ hpre e he))
      have := ih pre (n - 1) hpre
      simp only [List.filter_cons, ha, not_false_eq_true, decide_True, decide_False,
        if_true, List.map_cons, List.foldl_cons, hrm, this, List.length_cons]
      simp only [Bool.false_eq_true, if_false, SW.mk.injEq, true_and]
      push_cast
      ring

theorem SetWeight_eq_filter (w : SW) (ups : List WeightItem) :
    w.SetWeight ups
      = { items := (w.setLoop ups).1.items.filter
            (fun item => decide (item.Item ∈ (w.setLoop ups).2)),
          n := (w.setLoop ups).1.n -
            (((w.setLoop ups).1.items.filter
              (fun item => decide (item.Item ∉ (w.setLoop ups).2))).length : Int) } := by
  have := prune_aux (w.setLoop ups).2 (w.setLoop ups).1.items [] (w.setLoop ups).1.n
    (by intro e he; cases he)
  simpa [SW.SetWeight, SW.rmItems] using this

/-! ## The update loop of SetWeight -/

theorem setOld_none_iff (u : WeightItem) (l : List smoothWeighted) :
    SW.setOld u l = none ↔ ∀ e ∈ l, e.Item ≠ Iface.str u.ID := by
  induction l with
  | nil => simp [SW.setOld]
  | cons a rest ih =>
    by_cases ha : a.Item = Iface.str u.ID
    · by_cases hw : 1 ≤ u.Weight <;> simp [SW.setOld, ha, hw]
    · cases hr : SW.setOld u rest with
      | none =>
        have := ih.mp hr
        simp [SW.setOld, ha, hr]
        exact this
      | some r =>
        have h1 : ¬ ∀ e ∈ rest, e.Item ≠ Iface.str u.ID := fun h => by
          rw [ih.mpr h] at hr; cases hr
        simp only [SW.setOld, ha, if_false, hr]
        constructor
        · intro h; cases h
        · intro h
          exact absurd (fun e he => h e (List.mem_cons_of_mem _ he)) h1

theorem focus_cons (i : Iface) (a : smoothWeighted) (l : List smoothWeighted) :
    focus i (a :: l) = if a.Item = i then a :: focus i l else focus i l := by
  by_cases h : a.Item = i <;> simp [focus, List.filter_cons, h]

theorem focus_append (i : Iface) (l1 l2 : List smoothWeighted) :
    focus i (l1 ++ l2) = focus i l1 ++ focus i l2 := by
  simp [focus]

theorem focus_eq_nil_iff (i : Iface) (l : List smoothWeighted) :
    focus i l = [] ↔ ∀ e ∈ l, e.Item ≠ i := by
  simp [focus, List.filter_eq_nil_iff]

/-- What the scan for an existing entry does when it finds one. -/
theorem setOld_some_spec (u : WeightItem) (l l1 : List smoothWeighted) (b : Bool)
    (h : SW.setOld u l = some (l1, b)) :
    b = decide (1 ≤ u.Weight) ∧
    l1.map (fun e => e.Item) = l.map (fun e => e.Item) ∧
    (∀ i, i ≠ Iface.str u.ID → focus i l1 = focus i l) ∧
    ∃ a r, focus (Iface.str u.ID) l = a :: r ∧
      focus (Iface.str u.ID) l1 = (if 1 ≤ u.Weight then assign u.Weight a else a) :: r := by
  induction l generalizing l1 b with
  | nil => simp [SW.setOld] at h
  | cons a rest ih =>
    by_cases ha : a.Item = Iface.str u.ID
    · by_cases hw : 1 ≤ u.Weight
      · simp only [SW.setOld, ha, if_true, hw, Option.some.injEq, Prod.mk.injEq] at h
        obtain ⟨rfl, rfl⟩ := h
        refine ⟨by simp [hw], by simp [ha], ?_, a, focus (Iface.str u.ID) rest, ?_, ?_⟩
        · intro i hi
          have : ¬ a.Item = i := fun h => hi (h ▸ ha)
          simp [focus_cons, ha, Ne.symm hi]
        · simp [focus_cons, ha]
        · simp [focus_cons, ha, hw, assign]
      · simp only [SW.setOld, ha, if_true, hw, if_false, Option.some.injEq,
          Prod.mk.injEq] at h
        obtain ⟨rfl, rfl⟩ := h
        refine ⟨by simp [hw], rfl, fun _ _ => rfl, a, focus (Iface.str u.ID) rest, ?_, ?_⟩
        · simp [focus_cons, ha]
        · simp [focus_cons, ha, hw]
    · cases hr : SW.setOld u rest with
      | none => simp [SW.setOld, ha, hr] at h
      | some r =>
        obtain ⟨rest1, marked⟩ := r
        simp only [SW.setOld, ha, if_false, hr, Option.some.injEq, Prod.mk.injEq] at h
        obtain ⟨rfl, rfl⟩ := h
        obtain ⟨hb, hmap, hoth, a1, r1, hf, hf1⟩ := ih rest1 marked hr
        refine ⟨hb, by simp [hmap], ?_, a1, r1, ?_, ?_⟩
        · intro i hi
          simp [focus_cons, hoth i hi]
        · simp [focus_cons, ha, hf]
        · simp [focus_cons, ha, hf1]

/-- One update acts on the entries of any identity `i`, and on the kept mark of
`i`, as `focusStep` says. -/
theorem setOne_focus (st : SW × List Iface) (u : WeightItem) (i : Iface) :
    (focus i (SW.setOne st u).1.items, decide (i ∈ (SW.setOne st u).2))
      = focusStep i (focus i st.1.items, decide (i ∈ st.2)) u := by
  obtain ⟨w, kept⟩ := st
  cases hr : SW.setOld u w.items with
  | none =>
    have hno := (setOld_none_iff u w.items).mp hr
    by_cases hi : Iface.str u.ID = i
    · subst hi
      have hnil := (focus_eq_nil_iff (Iface.str u.ID) w.items).mpr hno
      simp [SW.setOne, hr, SW.Add, focus_append, hnil, focusStep, focus_cons, fresh]
      rfl
    · have hi2 : ¬ i = Iface.str u.ID := fun h => hi h.symm
      simp [SW.setOne, hr, SW.Add, focus_append, focusStep, focus_cons, hi, hi2, focus]
  | some r =>
    obtain ⟨l1, b⟩ := r
    obtain ⟨hb, -, hoth, a, r1, hf, hf1⟩ := setOld_some_spec u w.items l1 b hr
    by_cases hw : 1 ≤ u.Weight
    · have hbt : b = true := by simp [hb, hw]
      subst hbt
      by_cases hi : Iface.str u.ID = i
      · subst hi
        simp [SW.setOne, hr, focusStep, hf, hf1, hw]
      · have hi2 : ¬ i = Iface.str u.ID := fun h => hi h.symm
        simp [SW.setOne, hr, focusStep, hi, hi2, hoth i hi2]
    · have hbf : b = false := by simp [hb, hw]
      subst hbf
      by_cases hi : Iface.str u.ID = i
      · subst hi
        simp [SW.setOne, hr, focusStep, hf, hw]
      · simp [SW.setOne, hr, focusStep, hi]

theorem foldl_setOne_focus (ups : List WeightItem) (st : SW × List Iface) (i : Iface) :
    (focus i (ups.foldl SW.setOne st).1.items, decide (i ∈ (ups.foldl SW.setOne st).2))
      = ups.foldl (focusStep i) (focus i st.1.items, decide (i ∈ st.2)) := by
  induction ups generalizing st with
  | nil => rfl
  | cons u rest ih =>
    simp only [List.foldl_cons]
    rw [ih, setOne_focus]

/-- The entries of identity `i` after `SetWeight`: those produced by the update
loop when `i` was marked as kept, none otherwise. -/
theorem SetWeight_focus (w : SW) (ups : List WeightItem) (i : Iface) :
    focus i (w.SetWeight ups).items
      = if (ups.foldl (focusStep i) (focus i w.items, false)).2 = true
        then (ups.foldl (focusStep i) (focus i w.items, false)).1 else [] := by
  have h := foldl_setOne_focus ups (w, []) i
  simp only [List.not_mem_nil, decide_False] at h
  rw [← h, SetWeight_eq_filter]
  simp only [SW.setLoop, focus, List.filter_filter, decide_eq_true_eq]
  by_cases hk : i ∈ (ups.foldl SW.setOne (w, [])).2
  · simp only [hk, if_true]
    apply List.filter_congr
    intro e _
    by_cases he : e.Item = i <;> simp [he, hk]
  · simp only [hk, if_false]
    rw [List.filter_eq_nil_iff]
    intro e _
    by_cases he : e.Item = i <;> simp [he, hk]

theorem foldl_focusStep_other (i : Iface) (ups : List WeightItem)
    (st : List smoothWeighted × Bool) (h : ∀ u ∈ ups, Iface.str u.ID ≠ i) :
    ups.foldl (focusStep i) st = st := by
  induction ups generalizing st with
  | nil => rfl
  | cons u rest ih =>
    have hu : ¬ Iface.str u.ID = i := h u (List.mem_cons_self _ _)
    simp only [List.foldl_cons, focusStep, hu, if_false]
    exact ih st (fun u1 h1 => h u1 (List.mem_cons_of_mem _ h1))

theorem foldl_focusStep_nonpositive (i : Iface) (ups : List WeightItem)
    (a : smoothWeighted) (r : List smoothWeighted) (b : Bool)
    (h : ∀ u ∈ ups, Iface.str u.ID = i → u.Weight ≤ 0) :
    ups.foldl (focusStep i) (a :: r, b) = (a :: r, b) := by
  induction ups with
  | nil => rfl
  | cons u rest ih =>
    have hstep : focusStep i (a :: r, b) u = (a :: r, b) := by
      by_cases hu : Iface.str u.ID = i
      · have hw : ¬ 1 ≤ u.Weight := by
          have := h u (List.mem_cons_self _ _) hu
          omega
        simp [focusStep, hu, hw]
      · simp [focusStep, hu]
    simp only [List.foldl_cons, hstep]
    exact ih (fun u1 h1 => h u1 (List.mem_cons_of_mem _ h1))

/-- One update keeps the identities of the entries in place and appends at most
one new identity, which was absent; the count follows the number of entries. -/
theorem setOne_ids (st : SW × List Iface) (u : WeightItem) :
    ∃ C, (SW.setOne st u).1.items.map (fun e => e.Item)
          = st.1.items.map (fun e => e.Item) ++ C ∧
      (∀ c ∈ C, c ∉ st.1.items.map (fun e => e.Item) ∧ c = Iface.str u.ID) ∧
      (SW.setOne st u).1.n = st.1.n + (C.length : Int) ∧
      (∀ i ∈ (SW.setOne st u).2, i ∈ st.2 ∨ i = Iface.str u.ID) := by
  obtain ⟨w, kept⟩ := st
  cases hr : SW.setOld u w.items with
  | none =>
    have hno := (setOld_none_iff u w.items).mp hr
    refine ⟨[Iface.str u.ID], ?_, ?_, ?_, ?_⟩
    · simp [SW.setOne, hr, SW.Add]
    · intro c hc
      simp only [List.mem_singleton] at hc
      subst hc
      refine ⟨?_, rfl⟩
      intro hmem
      obtain ⟨e, he, heq⟩ := List.mem_map.mp hmem
      exact hno e he heq
    · simp [SW.setOne, hr, SW.Add]
    · intro i hi
      simpa [SW.setOne, hr] using hi
  | some r =>
    obtain ⟨l1, b⟩ := r
    obtain ⟨-, hmap, -, -⟩ := setOld_some_spec u w.items l1 b hr
    cases b with
    | true =>
      refine ⟨[], by simp [SW.setOne, hr, hmap], by simp, by simp [SW.setOne, hr], ?_⟩
      intro i hi
      simpa [SW.setOne, hr] using hi
    | false =>
      refine ⟨[], by simp [SW.setOne, hr], by simp, by simp [SW.setOne, hr], ?_⟩
      intro i hi
      left
      simpa [SW.setOne, hr] using hi

theorem foldl_setOne_ids (ups : List WeightItem) (st : SW × List Iface) :
    ∃ C, (ups.foldl SW.setOne st).1.items.map (fun e => e.Item)
          = st.1.items.map (fun e => e.Item) ++ C ∧
      (∀ c ∈ C, c ∉ st.1.items.map (fun e => e.Item) ∧ ∃ u ∈ ups, c = Iface.str u.ID) ∧
      (ups.foldl SW.setOne st).1.n = st.1.n + (C.length : Int) ∧
      (∀ i ∈ (ups.foldl SW.setOne st).2, i ∈ st.2 ∨ ∃ u ∈ ups, i = Iface.str u.ID) := by
  induction ups generalizing st with
  | nil => exact ⟨[], by simp, by simp, by simp, fun i hi => Or.inl hi⟩
  | cons u rest ih =>
    obtain ⟨C1, hm1, hc1, hn1, hk1⟩ := setOne_ids st u
    obtain ⟨C2, hm2, hc2, hn2, hk2⟩ := ih (SW.setOne st u)
    refine ⟨C1 ++ C2, ?_, ?_, ?_, ?_⟩
    · simp only [List.foldl_cons]
      rw [hm2, hm1, List.append_assoc]
    · intro c hc
      rcases List.mem_append.mp hc with hc | hc
      · exact ⟨(hc1 c hc).1, u, List.mem_cons_self _ _, (hc1 c hc).2⟩
      · obtain ⟨hnot, u1, hu1, hcu⟩ := hc2 c hc
        refine ⟨?_, u1, List.mem_cons_of_mem _ hu1, hcu⟩
        intro hmem
        exact hnot (by rw [hm1]; exact List.mem_append_left _ hmem)
    · simp only [List.foldl_cons]
      rw [hn2, hn1, List.length_append]
      push_cast
      ring
    · intro i hi
      simp only [List.foldl_cons] at hi
      rcases hk2 i hi with h | ⟨u1, hu1, hcu⟩
      · rcases hk1 i h with h | h
        · exact Or.inl h
        · exact Or.inr ⟨u, List.mem_cons_self _ _, h⟩
      · exact Or.inr ⟨u1, List.mem_cons_of_mem _ hu1, hcu⟩

/-- Layout of the entries after `SetWeight`: first the surviving pre-existing
entries, whose identities are in their original relative order, then entries of
identities that were not present before the call. -/
theorem SetWeight_layout (w : SW) (ups : List WeightItem) :
    ∃ P Q, (w.SetWeight ups).items = P ++ Q ∧
      List.Sublist (P.map (fun e => e.Item)) (w.items.map (fun e => e.Item)) ∧
      (∀ q ∈ Q, q.Item ∉ w.items.map (fun e => e.Item)) := by
  obtain ⟨C, hm, hc, -, -⟩ := foldl_setOne_ids ups (w, [])
  obtain ⟨O, A, hsplit, hO, hA⟩ := List.map_eq_append_iff.mp hm
  rw [SetWeight_eq_filter]
  simp only [SW.setLoop]
  rw [hsplit, List.filter_append]
  refine ⟨_, _, rfl, ?_, ?_⟩
  · have := List.filter_sublist (p := fun e : smoothWeighted =>
        decide (e.Item ∈ (List.foldl SW.setOne (w, []) ups).2)) O
    have h2 := this.map (fun e => e.Item)
    rw [hO] at h2
    exact h2
  · intro q hq
    have hqA : q ∈ A := (List.mem_filter.mp hq).1
    have : q.Item ∈ C := by
      rw [← hA]
      exact List.mem_map.mpr ⟨q, hqA, rfl⟩
    exact (hc _ this).1

theorem focus_of_nodup (l : List smoothWeighted) (e : smoothWeighted)
    (hnd : (l.map (fun a => a.Item)).Nodup) (he : e ∈ l) : focus e.Item l = [e] := by
  induction l with
  | nil => cases he
  | cons a rest ih =>
    simp only [List.map_cons, List.nodup_cons] at hnd
    rcases List.mem_cons.mp he with rfl | he
    · have : focus e.Item rest = [] := by
        rw [focus_eq_nil_iff]
        intro b hb heq
        exact hnd.1 (List.mem_map.mpr ⟨b, hb, heq⟩)
      simp [focus_cons, this]
    · have hne : ¬ a.Item = e.Item := fun h =>
        hnd.1 (List.mem_map.mpr ⟨e, he, h.symm⟩)
      simp [focus_cons, hne, ih hnd.2 he]

/-- The fold of `focusStep` over an update list that names `x` exactly once. -/
theorem foldl_focusStep_once (x : String) (v : Int) (ups1 ups2 : List WeightItem)
    (st : List smoothWeighted × Bool)
    (h1 : ∀ u ∈ ups1, u.ID ≠ x) (h2 : ∀ u ∈ ups2, u.ID ≠ x) :
    (ups1 ++ { ID := x, Weight := v } :: ups2).foldl (focusStep (Iface.str x)) st
      = focusStep (Iface.str x) st { ID := x, Weight := v } := by
  have g1 : ∀ u ∈ ups1, Iface.str u.ID ≠ Iface.str x := fun u hu h =>
    h1 u hu (Iface.str.inj h)
  have g2 : ∀ u ∈ ups2, Iface.str u.ID ≠ Iface.str x := fun u hu h =>
    h2 u hu (Iface.str.inj h)
  rw [List.foldl_append, List.foldl_cons, foldl_focusStep_other _ _ _ g1,
    foldl_focusStep_other _ _ _ g2]

theorem setOne_ids_exact (st : SW × List Iface) (u : WeightItem) :
    (SW.setOne st u).1.items.map (fun e => e.Item)
      = if Iface.str u.ID ∈ st.1.items.map (fun e => e.Item)
        then st.1.items.map (fun e => e.Item)
        else st.1.items.map (fun e => e.Item) ++ [Iface.str u.ID] := by
  obtain ⟨w, kept⟩ := st
  cases hr : SW.setOld u w.items with
  | none =>
    have hno := (setOld_none_iff u w.items).mp hr
    have : Iface.str u.ID ∉ w.items.map (fun e => e.Item) := by
      intro hmem
      obtain ⟨e, he, heq⟩ := List.mem_map.mp hmem
      exact hno e he heq
    simp only [this, if_false]
    simp [SW.setOne, hr, SW.Add]
  | some r =>
    obtain ⟨l1, b⟩ := r
    obtain ⟨-, hmap, -, a, r1, hf, -⟩ := setOld_some_spec u w.items l1 b hr
    have hmem : Iface.str u.ID ∈ w.items.map (fun e => e.Item) := by
      have ha : a ∈ focus (Iface.str u.ID) w.items := by rw [hf]; exact List.mem_cons_self _ _
      have ha2 := List.mem_filter.mp ha
      exact List.mem_map.mpr ⟨a, ha2.1, by simpa using ha2.2⟩
    simp only [hmem, if_true]
    cases b <;> simp [SW.setOne, hr, hmap]

/-- The identities after the update loop, for an update list with pairwise
distinct IDs: the original ones, then the IDs that were absent, in update order. -/
theorem foldl_setOne_ids_exact (ups : List WeightItem)
    (hnd : (ups.map (fun u => u.ID)).Nodup) (st : SW × List Iface) :
    (ups.foldl SW.setOne st).1.items.map (fun e => e.Item)
      = st.1.items.map (fun e => e.Item) ++
        (ups.filter (fun u => decide (Iface.str u.ID ∉ st.1.items.map (fun e => e.Item)))).map
          (fun u => Iface.str u.ID) := by
  induction ups generalizing st with
  | nil => simp
  | cons u rest ih =>
    simp only [List.map_cons, List.nodup_cons] at hnd
    simp only [List.foldl_cons]
    rw [ih hnd.2, setOne_ids_exact]
    by_cases hmem : Iface.str u.ID ∈ st.1.items.map (fun e => e.Item)
    · simp only [hmem, if_true, List.filter_cons, not_true_eq_false, decide_False]
      simp
    · simp only [hmem, if_false, List.filter_cons, not_false_eq_true, decide_True, if_true,
        List.map_cons, List.append_assoc, List.singleton_append]
      congr 3
      apply List.filter_congr
      intro a ha
      have hne : Iface.str a.ID ≠ Iface.str u.ID := fun h =>
        hnd.1 (List.mem_map.mpr ⟨a, ha, Iface.str.inj h⟩)
      simp [hne]

theorem setOne_nodup (st : SW × List Iface) (u : WeightItem)
    (h : (st.1.items.map (fun e => e.Item)).Nodup) :
    ((SW.setOne st u).1.items.map (fun e => e.Item)).Nodup := by
  rw [setOne_ids_exact]
  split_ifs with hmem
  · exact h
  · exact List.nodup_append.mpr ⟨h, List.nodup_singleton _, by
      intro a ha hb
      simp only [List.mem_singleton] at hb
      exact hmem (hb ▸ ha)⟩

theorem foldl_setOne_nodup (ups : List WeightItem) (st : SW × List Iface)
    (h : (st.1.items.map (fun e => e.Item)).Nodup) :
    ((ups.foldl SW.setOne st).1.items.map (fun e => e.Item)).Nodup := by
  induction ups generalizing st with
  | nil => exact h
  | cons u rest ih => exact ih _ (setOne_nodup st u h)

/-- The identities stay pairwise distinct across `SetWeight`. -/
theorem SetWeight_nodup (w : SW) (ups : List WeightItem)
    (h : (w.items.map (fun e => e.Item)).Nodup) :
    ((w.SetWeight ups).items.map (fun e => e.Item)).Nodup := by
  rw [SetWeight_eq_filter]
  exact ((List.filter_sublist _).map _).nodup (foldl_setOne_nodup ups (w, []) h)

/-- A list with pairwise distinct identities is its list of identities, each
looked up in the list. -/
theorem eq_filterMap_focus (l : List smoothWeighted)
    (hnd : (l.map (fun e => e.Item)).Nodup) :
    l = (l.map (fun e => e.Item)).filterMap (fun i => (focus i l).head?) := by
  rw [List.filterMap_map]
  have : ∀ e ∈ l, ((fun i => (focus i l).head?) ∘ fun e => e.Item) e = some e := by
    intro e he
    simp [focus_of_nodup l e hnd he]
  rw [List.filterMap_congr this, List.filterMap_some]

theorem filterMap_eq_map_of_forall {α β : Type} (f : α → Option β) (g : α → β)
    (l : List α) (h : ∀ a ∈ l, f a = some (g a)) : l.filterMap f = l.map g := by
  induction l with
  | nil => rfl
  | cons a rest ih =>
    rw [List.filterMap_cons, h a (List.mem_cons_self _ _), List.map_cons,
      ih (fun b hb => h b (List.mem_cons_of_mem _ hb))]

theorem split_of_nodup_ID (ups : List WeightItem) (u : WeightItem)
    (hnd : (ups.map (fun a => a.ID)).Nodup) (hu : u ∈ ups) :
    ∃ ups1 ups2, ups = ups1 ++ u :: ups2 ∧ (∀ a ∈ ups1, a.ID ≠ u.ID) ∧
      (∀ a ∈ ups2, a.ID ≠ u.ID) := by
  obtain ⟨ups1, ups2, rfl⟩ := List.append_of_mem hu
  refine ⟨ups1, ups2, rfl, ?_, ?_⟩
  · intro a ha heq
    simp only [List.map_append, List.map_cons] at hnd
    have := (List.nodup_append.mp hnd).2.2
    exact this (List.mem_map.mpr ⟨a, ha, rfl⟩) (by rw [heq]; exact List.mem_cons_self _ _)
  · intro a ha heq
    simp only [List.map_append, List.map_cons] at hnd
    have := ((List.nodup_append.mp hnd).2.1)
    simp only [List.nodup_cons] at this
    exact this.1 (List.mem_map.mpr ⟨a, ha, heq⟩)

/-- Over the whole call of `SetWeight` the count changes exactly as the number
of entries does. -/
theorem SetWeight_count (s : SW) (ups : List WeightItem) :
    (s.SetWeight ups).n = (s.setLoop ups).1.n -
      (((s.setLoop ups).1.items.length : Int) - ((s.SetWeight ups).items.length : Int)) ∧
    (s.SetWeight ups).n - ((s.SetWeight ups).items.length : Int)
      = s.n - (s.items.length : Int) := by
  obtain ⟨C, hm, -, hn, -⟩ := foldl_setOne_ids ups (s, [])
  have hlen : ((s.setLoop ups).1.items.length : Int) = (s.items.length : Int) + C.length := by
    have := congrArg List.length hm
    simp only [List.length_map, List.length_append] at this
    simp only [SW.setLoop]
    exact_mod_cast this
  have hsplit : ((s.setLoop ups).1.items.length : Int)
      = (((s.setLoop ups).1.items.filter
            (fun item => decide (item.Item ∈ (s.setLoop ups).2))).length : Int)
        + (((s.setLoop ups).1.items.filter
            (fun item => decide (item.Item ∉ (s.setLoop ups).2))).length : Int) := by
    have := List.length_eq_length_filter_add
      (fun item : smoothWeighted => decide (item.Item ∈ (s.setLoop ups).2))
      (l := (s.setLoop ups).1.items)
    have h2 : (fun item : smoothWeighted => !decide (item.Item ∈ (s.setLoop ups).2))
        = (fun item => decide (item.Item ∉ (s.setLoop ups).2)) := by
      funext item; simp
    rw [h2] at this
    exact_mod_cast this
  have hn2 : (s.setLoop ups).1.n = s.n + (C.length : Int) := hn
  rw [SetWeight_eq_filter]
  refine ⟨?_, ?_⟩
  · simp only
    omega
  · simp only
    omega

theorem SetWeight_named (s : SW) (ups : List WeightItem) :
    ∀ e ∈ (s.SetWeight ups).items, ∃ u ∈ ups, e.Item = Iface.str u.ID := by
  obtain ⟨C, -, -, -, hk⟩ := foldl_setOne_ids ups (s, [])
  rw [SetWeight_eq_filter]
  intro e he
  have hkept : e.Item ∈ (s.setLoop ups).2 := by
    simpa using (List.mem_filter.mp he).2
  rcases hk _ hkept with h | h
  · cases h
  · exact h

/-- The entries after `SetWeight`, for pairwise distinct identities and pairwise
distinct update IDs: run through the original identities and then the new IDs,
and take for each the entry that the update loop produced, when it was kept. -/
theorem SetWeight_items_eq (s : SW) (ups : List WeightItem)
    (hs : (s.items.map (fun e => e.Item)).Nodup)
    (hups : (ups.map (fun u => u.ID)).Nodup) :
    (s.SetWeight ups).items
      = (s.items.map (fun e => e.Item) ++
          (ups.filter (fun u => decide (Iface.str u.ID ∉ s.items.map (fun e => e.Item)))).map
            (fun u => Iface.str u.ID)).filterMap
          (fun i =>
            if (ups.foldl (focusStep i) (focus i s.items, false)).2 = true
            then (ups.foldl (focusStep i) (focus i s.items, false)).1.head? else none) := by
  have e1 := eq_filterMap_focus (s.SetWeight ups).items (SetWeight_nodup s ups hs)
  have e2 : (s.SetWeight ups).items.map (fun e => e.Item)
      = ((s.setLoop ups).1.items.map (fun e => e.Item)).filter
          (fun i => decide (i ∈ (s.setLoop ups).2)) := by
    rw [SetWeight_eq_filter, List.filter_map]
    rfl
  have e3 := foldl_setOne_ids_exact ups hups (s, [])
  rw [e2] at e1
  simp only [SW.setLoop] at e1
  rw [e3, List.filterMap_filter] at e1
  rw [e1]
  apply List.filterMap_congr
  intro i _
  have hpair := foldl_setOne_focus ups (s, []) i
  simp only [List.not_mem_nil, decide_False] at hpair
  have hflag : decide (i ∈ (ups.foldl SW.setOne (s, [])).2)
      = (ups.foldl (focusStep i) (focus i s.items, false)).2 := by
    rw [← hpair]
  simp only [hflag, ← e1, SetWeight_focus]
  by_cases hb : (ups.foldl (focusStep i) (focus i s.items, false)).2 = true <;> simp [hb]

theorem foldl_focusStep_existing (adds : List (String × Int)) (ups : List WeightItem)
    (hadds : (adds.map Prod.fst).Nodup) (hups : (ups.map (fun u => u.ID)).Nodup)
    (p : String × Int) (hp : p ∈ adds) :
    ups.foldl (focusStep (Iface.str p.1))
        (focus (Iface.str p.1)
          ((adds.map (fun q => (Iface.str q.1, q.2))).map fresh), false)
      = match ups.find? (fun u => decide (u.ID = p.1)) with
        | some u => if 1 ≤ u.Weight then ([fresh (Iface.str p.1, u.Weight)], true)
                    else ([fresh (Iface.str p.1, p.2)], false)
        | none => ([fresh (Iface.str p.1, p.2)], false) := by
  have hnd : (((adds.map (fun q => (Iface.str q.1, q.2))).map fresh).map
      (fun e => e.Item)).Nodup := by
    have : ((adds.map (fun q => (Iface.str q.1, q.2))).map fresh).map (fun e => e.Item)
        = (adds.map Prod.fst).map Iface.str := by
      simp [List.map_map, Function.comp_def, fresh]
    rw [this]
    exact hadds.map (fun a b h => Iface.str.inj h)
  have hmem : fresh (Iface.str p.1, p.2)
      ∈ (adds.map (fun q => (Iface.str q.1, q.2))).map fresh :=
    List.mem_map.mpr ⟨_, List.mem_map.mpr ⟨p, hp, rfl⟩, rfl⟩
  have hf := focus_of_nodup _ _ hnd hmem
  have hf2 : focus (Iface.str p.1) ((adds.map (fun q => (Iface.str q.1, q.2))).map fresh)
      = [fresh (Iface.str p.1, p.2)] := hf
  rw [hf2]
  cases hfind : ups.find? (fun u => decide (u.ID = p.1)) with
  | none =>
    have hno : ∀ u ∈ ups, Iface.str u.ID ≠ Iface.str p.1 := by
      intro u hu h
      have := List.find?_eq_none.mp hfind u hu
      simp at this
      exact this (Iface.str.inj h)
    simp only [foldl_focusStep_other _ _ _ hno]
  | some u =>
    have huid : u.ID = p.1 := by simpa using List.find?_some hfind
    have humem : u ∈ ups := List.mem_of_find?_eq_some hfind
    obtain ⟨ups1, ups2, hsplit, h1, h2⟩ := split_of_nodup_ID ups u hups humem
    obtain ⟨uid, uw⟩ := u
    simp only at huid h1 h2
    subst huid
    rw [hsplit, foldl_focusStep_once _ uw ups1 ups2 _ h1 h2]
    by_cases hw : 1 ≤ uw <;> simp [focusStep, hw, assign, fresh]

theorem foldl_focusStep_new (s : SW) (ups : List WeightItem)
    (hups : (ups.map (fun u => u.ID)).Nodup) (u : WeightItem) (hu : u ∈ ups)
    (hnew : Iface.str u.ID ∉ s.items.map (fun e => e.Item)) :
    ups.foldl (focusStep (Iface.str u.ID)) (focus (Iface.str u.ID) s.items, false)
      = ([fresh (Iface.str u.ID, u.Weight)], true) := by
  have hf : focus (Iface.str u.ID) s.items = [] := by
    rw [focus_eq_nil_iff]
    intro e he heq
    exact hnew (List.mem_map.mpr ⟨e, he, heq⟩)
  obtain ⟨ups1, ups2, hsplit, h1, h2⟩ := split_of_nodup_ID ups u hups hu
  obtain ⟨uid, uw⟩ := u
  simp only at h1 h2 hf
  rw [hf]
  conv_lhs => rw [hsplit]
  rw [foldl_focusStep_once uid uw ups1 ups2 _ h1 h2]
  simp [focusStep]

/-! ## Selection rounds on a selector built by Add -/

theorem totalEffective_append (l1 l2 : List smoothWeighted) :
    totalEffective (l1 ++ l2) = totalEffective l1 + totalEffective l2 := by
  simp [totalEffective]

theorem totalEffective_cons (a : smoothWeighted) (l : List smoothWeighted) :
    totalEffective (a :: l) = a.EffectiveWeight + totalEffective l := by
  simp [totalEffective]

theorem totalCurrent_append (l1 l2 : List smoothWeighted) :
    totalCurrent (l1 ++ l2) = totalCurrent l1 + totalCurrent l2 := by
  simp [totalCurrent]

theorem totalCurrent_cons (a : smoothWeighted) (l : List smoothWeighted) :
    totalCurrent (a :: l) = a.CurrentWeight + totalCurrent l := by
  simp [totalCurrent]


theorem totalEffective_map_bump {int : Int → Int} (l : List smoothWeighted)
    (h : ∀ e ∈ l, e.EffectiveWeight = e.Weight) :
    totalEffective (l.map (bump int)) = totalEffective l := by
  induction l with
  | nil => rfl
  | cons a rest ih =>
    simp only [List.map_cons, totalEffective_cons]
    rw [ih (fun e he => h e (List.mem_cons_of_mem _ he)),
      bump_EffectiveWeight a (h a (List.mem_cons_self _ _))]

theorem totalCurrent_nonpos (l : List smoothWeighted) (h : ∀ e ∈ l, e.CurrentWeight ≤ 0) :
    totalCurrent l ≤ 0 := by
  induction l with
  | nil => simp [totalCurrent]
  | cons a rest ih =>
    rw [totalCurrent_cons]
    have h1 := h a (List.mem_cons_self _ _)
    have h2 := ih (fun e he => h e (List.mem_cons_of_mem _ he))
    omega

theorem current_zero_of_nonneg (l : List smoothWeighted) (h : ∀ e ∈ l, 0 ≤ e.CurrentWeight)
    (hsum : totalCurrent l = 0) : ∀ e ∈ l, e.CurrentWeight = 0 := by
  induction l with
  | nil => intro e he; cases he
  | cons a rest ih =>
    rw [totalCurrent_cons] at hsum
    have h1 := h a (List.mem_cons_self _ _)
    have hrest : ∀ e ∈ rest, 0 ≤ e.CurrentWeight := fun e he => h e (List.mem_cons_of_mem _ he)
    have h2 : 0 ≤ totalCurrent rest := by
      have := totalCurrent_nonpos (rest.map (fun e => { e with CurrentWeight := -e.CurrentWeight }))
        (by
          intro e he
          obtain ⟨b, hb, rfl⟩ := List.mem_map.mp he
          have := hrest b hb
          simp only
          omega)
      have hneg : totalCurrent (rest.map (fun e => { e with CurrentWeight := -e.CurrentWeight }))
          = - totalCurrent rest := by
        clear this ih hsum h hrest
        induction rest with
        | nil => simp [totalCurrent]
        | cons b r ihr =>
          simp only [List.map_cons, totalCurrent_cons, ihr]
          ring
      omega
    intro e he
    rcases List.mem_cons.mp he with rfl | he
    · omega
    · exact ih hrest (by omega) e he

theorem settle_Item {int : Int → Int} (t : Int) (e : smoothWeighted) : (settle int t e).Item = e.Item := by
  simp [settle, bump_Item]

theorem settle_Weight {int : Int → Int} (t : Int) (e : smoothWeighted) : (settle int t e).Weight = e.Weight := by
  simp [settle, bump_Weight]

theorem settle_CurrentWeight {int : Int → Int} (t : Int) (e : smoothWeighted) :
    (settle int t e).CurrentWeight = int (int (e.CurrentWeight + e.EffectiveWeight) - t) := by
  simp [settle, bump_CurrentWeight]

theorem bump_CurrentWeight_unbounded (e : smoothWeighted) :
    (bump unbounded e).CurrentWeight = e.CurrentWeight + e.EffectiveWeight := by
  rw [bump_CurrentWeight]; rfl

theorem settle_CurrentWeight_unbounded (t : Int) (e : smoothWeighted) :
    (settle unbounded t e).CurrentWeight = e.CurrentWeight + e.EffectiveWeight - t := by
  rw [settle_CurrentWeight]; rfl

theorem totalCurrent_map_bump (l : List smoothWeighted) :
    totalCurrent (l.map (bump unbounded)) = totalCurrent l + totalEffective l := by
  induction l with
  | nil => simp [totalCurrent, totalEffective]
  | cons a rest ih =>
    simp only [List.map_cons, totalCurrent_cons, totalEffective_cons, ih, bump_CurrentWeight_unbounded]
    ring

theorem settle_EffectiveWeight {int : Int → Int} (t : Int) (e : smoothWeighted)
    (h : e.EffectiveWeight = e.Weight) : (settle int t e).EffectiveWeight = e.EffectiveWeight := by
  simp [settle, bump_EffectiveWeight e h]

theorem map_Item_bump {int : Int → Int} (l : List smoothWeighted) :
    (l.map (bump int)).map (fun e => e.Item) = l.map (fun e => e.Item) := by
  simp [List.map_map, Function.comp_def, bump_Item]

/-- One round keeps the invariant, with the winner's identity appended to the
results. -/
theorem balanced_round (T : Int) (hist : List Iface) (pre post : List smoothWeighted)
    (x : smoothWeighted) (hB : Balanced T hist (pre ++ x :: post))
    (hpre : ∀ e ∈ pre, (bump unbounded e).CurrentWeight < (bump unbounded x).CurrentWeight)
    (hpost : ∀ e ∈ post, (bump unbounded e).CurrentWeight ≤ (bump unbounded x).CurrentWeight) :
    Balanced T (hist ++ [x.Item]) (pre.map (bump unbounded) ++ settle unbounded T x :: post.map (bump unbounded)) := by
  obtain ⟨hT1, hEW, hTot, hCur, hEach, hnd⟩ := hB
  have hEWpre : ∀ e ∈ pre, e.EffectiveWeight = e.Weight := fun e he =>
    (hEW e (List.mem_append_left _ he)).1
  have hEWpost : ∀ e ∈ post, e.EffectiveWeight = e.Weight := fun e he =>
    (hEW e (List.mem_append_right _ (List.mem_cons_of_mem _ he))).1
  have hx := hEW x (List.mem_append_right _ (List.mem_cons_self _ _))
  have hxmem : x ∈ pre ++ x :: post := List.mem_append_right _ (List.mem_cons_self _ _)
  -- identities other than the winner's
  simp only [List.map_append, List.map_cons] at hnd
  have hndx := (List.nodup_append.mp hnd).2.1
  simp only [List.nodup_cons] at hndx
  have hpre_ne : ∀ e ∈ pre, e.Item ≠ x.Item := fun e he heq =>
    (List.nodup_append.mp hnd).2.2 (List.mem_map.mpr ⟨e, he, rfl⟩)
      (by rw [heq]; exact List.mem_cons_self _ _)
  have hpost_ne : ∀ e ∈ post, e.Item ≠ x.Item := fun e he heq =>
    hndx.1 (List.mem_map.mpr ⟨e, he, heq⟩)
  -- the winner's updated current weight is positive
  have hpos : 0 < (bump unbounded x).CurrentWeight := by
    by_contra hneg
    have hall : ∀ e ∈ (pre ++ x :: post).map (bump unbounded), e.CurrentWeight ≤ 0 := by
      intro e he
      obtain ⟨b, hb, rfl⟩ := List.mem_map.mp he
      rcases List.mem_append.mp hb with hb | hb
      · have := hpre b hb; omega
      · rcases List.mem_cons.mp hb with rfl | hb
        · omega
        · have := hpost b hb; omega
    have := totalCurrent_nonpos _ hall
    rw [totalCurrent_map_bump, hCur, hTot] at this
    omega
  rw [bump_CurrentWeight_unbounded] at hpos
  have hothers : ∀ e ∈ pre ++ post, e.Item ≠ x.Item → e ∈ pre ++ x :: post →
      (-T < (bump unbounded e).CurrentWeight ∧
        (bump unbounded e).CurrentWeight = ((hist ++ [x.Item]).length : Int) * (bump unbounded e).Weight
          - ((hist ++ [x.Item]).count (bump unbounded e).Item : Int) * T) := by
    intro e _ hne hmem
    obtain ⟨h1, h2⟩ := hEach e hmem
    obtain ⟨h3, h4⟩ := hEW e hmem
    have hc : (hist ++ [x.Item]).count e.Item = hist.count e.Item := by
      rw [List.count_append]
      have : List.count e.Item [x.Item] = 0 :=
        List.count_eq_zero.mpr (by simpa using hne)
      omega
    rw [bump_CurrentWeight_unbounded, bump_Weight, bump_Item, hc, List.length_append, h3, h2]
    refine ⟨by rw [← h2]; omega, ?_⟩
    simp only [List.length_singleton]
    push_cast
    ring
  refine ⟨hT1, ?_, ?_, ?_, ?_, ?_⟩
  · intro e he
    rcases List.mem_append.mp he with he | he
    · obtain ⟨b, hb, rfl⟩ := List.mem_map.mp he
      have := hEW b (List.mem_append_left _ hb)
      rw [bump_EffectiveWeight b this.1, bump_Weight]
      exact this
    · rcases List.mem_cons.mp he with rfl | he
      · rw [settle_EffectiveWeight T x hx.1, settle_Weight]
        exact hx
      · obtain ⟨b, hb, rfl⟩ := List.mem_map.mp he
        have := hEW b (List.mem_append_right _ (List.mem_cons_of_mem _ hb))
        rw [bump_EffectiveWeight b this.1, bump_Weight]
        exact this
  · rw [totalEffective_append, totalEffective_cons, totalEffective_map_bump pre hEWpre,
      totalEffective_map_bump post hEWpost, settle_EffectiveWeight T x hx.1, ← hTot,
      totalEffective_append, totalEffective_cons]
  · rw [totalCurrent_append, totalCurrent_cons, totalCurrent_map_bump, totalCurrent_map_bump,
      settle_CurrentWeight_unbounded]
    rw [totalCurrent_append, totalCurrent_cons] at hCur
    rw [totalEffective_append, totalEffective_cons] at hTot
    omega
  · intro e he
    rcases List.mem_append.mp he with he | he
    · obtain ⟨b, hb, rfl⟩ := List.mem_map.mp he
      exact hothers b (List.mem_append_left _ hb) (hpre_ne b hb) (List.mem_append_left _ hb)
    · rcases List.mem_cons.mp he with rfl | he
      · obtain ⟨h1, h2⟩ := hEach x hxmem
        have hc : (hist ++ [x.Item]).count x.Item = hist.count x.Item + 1 := by
          rw [List.count_append]
          simp
        rw [settle_CurrentWeight_unbounded, settle_Weight, settle_Item, hc, List.length_append, hx.1, h2]
        refine ⟨by rw [← h2, ← hx.1]; omega, ?_⟩
        simp only [List.length_singleton]
        push_cast
        ring
      · obtain ⟨b, hb, rfl⟩ := List.mem_map.mp he
        exact hothers b (List.mem_append_right _ hb) (hpost_ne b hb)
          (List.mem_append_right _ (List.mem_cons_of_mem _ hb))
  · simp only [List.map_append, List.map_cons, map_Item_bump, settle_Item]
    exact hnd

/-- With at least two entries and a consistent count, `Next` runs one round. -/
theorem next_balanced (T : Int) (hist : List Iface) (s : SW)
    (hB : Balanced T hist s.items) (hn : s.n = s.items.length) (h2 : 2 ≤ s.items.length) :
    ∃ r s1, s.Next unbounded = some (r, s1) ∧ Balanced T (hist ++ [r]) s1.items ∧
      s1.n = s1.items.length ∧ 2 ≤ s1.items.length := by
  obtain ⟨items, n⟩ := s
  simp only at hB hn h2
  have hne : items ≠ [] := by
    intro h; subst h; simp at h2
  obtain ⟨pre, x, post, hdec, hr, hpre, hpost⟩ := nextSmoothWeighted_spec items hne
  have hT : totalEffective items = T := hB.2.2.1
  rw [totalInt_unbounded, zero_add] at hr
  have h0 : ¬ n = 0 := by omega
  have h1 : ¬ n = 1 := by omega
  rw [hT] at hr
  refine ⟨(settle unbounded T x).Item, ⟨pre.map (bump unbounded) ++ settle unbounded T x :: post.map (bump unbounded), n⟩, ?_, ?_, ?_, ?_⟩
  · simp [SW.Next, SW.nextWeighted, h0, h1, hr]
  · rw [settle_Item]
    rw [hdec] at hB
    exact balanced_round T hist pre post x hB hpre hpost
  · simp only [List.length_append, List.length_cons, List.length_map]
    rw [hn, hdec]
    simp
  · simp only [List.length_append, List.length_cons, List.length_map]
    rw [hdec] at h2
    simpa using h2

theorem nextN_balanced (T : Int) (k : Nat) (hist : List Iface) (s : SW)
    (hB : Balanced T hist s.items) (hn : s.n = s.items.length) (h2 : 2 ≤ s.items.length) :
    ∃ out s1, SW.NextN unbounded k s = some (out, s1) ∧ out.length = k ∧
      Balanced T (hist ++ out) s1.items := by
  induction k generalizing hist s with
  | zero => exact ⟨[], s, rfl, rfl, by simpa using hB⟩
  | succ k ih =>
    obtain ⟨r, s1, hr, hB1, hn1, h21⟩ := next_balanced T hist s hB hn h2
    obtain ⟨out, s2, hout, hlen, hB2⟩ := ih (hist ++ [r]) s1 hB1 hn1 h21
    refine ⟨r :: out, s2, by simp [SW.NextN, hr, hout], by simp [hlen], ?_⟩
    simpa using hB2

/-- After a number of rounds that is a multiple `m * T` of the total weight, every
entry has won exactly `m` times its weight. -/
theorem balanced_counts (T : Int) (m : Nat) (hist : List Iface) (items : List smoothWeighted)
    (hB : Balanced T hist items) (hlen : hist.length = m * T.toNat) :
    ∀ e ∈ items, (hist.count e.Item : Int) = (m : Int) * e.Weight := by
  obtain ⟨hT1, -, -, hCur, hEach, -⟩ := hB
  have hlenZ : (hist.length : Int) = (m : Int) * T := by
    rw [hlen]
    push_cast
    rw [Int.toNat_of_nonneg (by omega)]
  have hform : ∀ e ∈ items,
      e.CurrentWeight = T * ((m : Int) * e.Weight - (hist.count e.Item : Int)) := by
    intro e he
    rw [(hEach e he).2, hlenZ]
    ring
  have hnonneg : ∀ e ∈ items, 0 ≤ e.CurrentWeight := by
    intro e he
    have h1 := (hEach e he).1
    rw [hform e he] at h1 ⊢
    have hz : 0 ≤ (m : Int) * e.Weight - (hist.count e.Item : Int) := by
      by_contra hneg
      have hle : (m : Int) * e.Weight - (hist.count e.Item : Int) ≤ -1 := by omega
      have := mul_le_mul_of_nonneg_left hle (by omega : (0 : Int) ≤ T)
      omega
    exact mul_nonneg (by omega) hz
  intro e he
  have hz := current_zero_of_nonneg items hnonneg hCur e he
  rw [hform e he] at hz
  rcases mul_eq_zero.mp hz with h | h
  · omega
  · omega

theorem balanced_build (ws : List (Iface × Int)) (hne : ws ≠ [])
    (hnd : (ws.map Prod.fst).Nodup) (hw : ∀ p ∈ ws, 1 ≤ p.2) :
    Balanced (ws.map Prod.snd).sum [] (ws.map fresh) := by
  have hsum : ∀ l : List (Iface × Int), (∀ p ∈ l, 1 ≤ p.2) →
      totalEffective (l.map fresh) = (l.map Prod.snd).sum ∧ totalCurrent (l.map fresh) = 0 ∧
      (l.length : Int) ≤ (l.map Prod.snd).sum := by
    intro l hl
    induction l with
    | nil => simp [totalEffective, totalCurrent]
    | cons a rest ih =>
      obtain ⟨h1, h2, h3⟩ := ih (fun p hp => hl p (List.mem_cons_of_mem _ hp))
      have ha := hl a (List.mem_cons_self _ _)
      simp only [List.map_cons, totalEffective_cons, totalCurrent_cons, h1, h2,
        List.sum_cons, List.length_cons]
      refine ⟨by simp [fresh], by simp [fresh], ?_⟩
      push_cast
      omega
  obtain ⟨h1, h2, h3⟩ := hsum ws hw
  have hlen : 1 ≤ (ws.length : Int) := by
    cases ws with
    | nil => exact absurd rfl hne
    | cons a rest => simp only [List.length_cons]; push_cast; omega
  refine ⟨by omega, ?_, h1, h2, ?_, ?_⟩
  · intro e he
    obtain ⟨p, hp, rfl⟩ := List.mem_map.mp he
    exact ⟨rfl, hw p hp⟩
  · intro e he
    obtain ⟨p, hp, rfl⟩ := List.mem_map.mp he
    simp only [fresh, List.length_nil, List.count_nil]
    refine ⟨by omega, by simp⟩
  · have : (ws.map fresh).map (fun e => e.Item) = ws.map Prod.fst := by
      simp [List.map_map, Function.comp_def, fresh]
    rw [this]
    exact hnd

theorem nextN_single {int : Int → Int} (e : smoothWeighted) (k : Nat) :
    SW.NextN int k { items := [e], n := 1 }
      = some (List.replicate k e.Item, { items := [e], n := 1 }) := by
  have h1 : SW.Next int { items := [e], n := 1 } = some (e.Item, { items := [e], n := 1 }) := by
    simp [SW.Next, SW.nextWeighted]
  induction k with
  | zero => rfl
  | succ k ih => simp [SW.NextN, h1, ih, List.replicate_succ]

/-! ## Sequences of calls and the invariants of the reachable states -/

theorem exists_first_match (l : List smoothWeighted) (x : Iface) :
    (∀ e ∈ l, e.Item ≠ x) ∨
    ∃ pre d post, l = pre ++ d :: post ∧ (∀ e ∈ pre, e.Item ≠ x) ∧ d.Item = x := by
  induction l with
  | nil => left; intro e he; cases he
  | cons a rest ih =>
    by_cases ha : a.Item = x
    · right
      exact ⟨[], a, rest, rfl, (fun e he => absurd he (List.not_mem_nil e)), ha⟩
    · rcases ih with h | ⟨pre, d, post, hdec, hpre, hd⟩
      · left
        intro e he
        rcases List.mem_cons.mp he with rfl | he
        · exact ha
        · exact h e he
      · right
        refine ⟨a :: pre, d, post, by simp [hdec], ?_, hd⟩
        intro e he
        rcases List.mem_cons.mp he with rfl | he
        · exact ha
        · exact hpre e he

/-- The two outcomes of `Remove`: nothing matched and the selector is unchanged,
or the first matching entry is deleted and the count lowered by one. -/
theorem Remove_cases (s : SW) (x : Iface) :
    ((∀ e ∈ s.items, e.Item ≠ x) ∧ s.Remove x = s) ∨
    ∃ pre d post, s.items = pre ++ d :: post ∧ (∀ e ∈ pre, e.Item ≠ x) ∧ d.Item = x ∧
      s.Remove x = { items := pre ++ post, n := s.n - 1 } := by
  rcases exists_first_match s.items x with h | ⟨pre, d, post, hdec, hpre, hd⟩
  · exact Or.inl ⟨h, Remove_absent s x h⟩
  · right
    refine ⟨pre, d, post, hdec, hpre, hd, ?_⟩
    obtain ⟨items, n⟩ := s
    simp only at hdec
    subst hdec
    subst hd
    exact Remove_first pre post d n hpre

/-- A property of entries that holds for what `SetWeight` writes (an assigned
entry, a fresh entry) holds for all entries after `SetWeight` if it held before. -/
theorem setOld_forall (P : smoothWeighted → Prop) (hassign : ∀ v e, P e → P (assign v e))
    (u : WeightItem) (l l1 : List smoothWeighted) (b : Bool)
    (h : SW.setOld u l = some (l1, b)) (hl : ∀ e ∈ l, P e) : ∀ e ∈ l1, P e := by
  induction l generalizing l1 b with
  | nil => simp [SW.setOld] at h
  | cons a rest ih =>
    have ha := hl a (List.mem_cons_self _ _)
    have hrest : ∀ e ∈ rest, P e := fun e he => hl e (List.mem_cons_of_mem _ he)
    by_cases hid : a.Item = Iface.str u.ID
    · by_cases hw : 1 ≤ u.Weight
      · simp only [SW.setOld, hid, if_true, hw, Option.some.injEq, Prod.mk.injEq] at h
        obtain ⟨rfl, rfl⟩ := h
        intro e he
        rcases List.mem_cons.mp he with rfl | he
        · have := hassign u.Weight a ha
          simpa [assign, hid] using this
        · exact hrest e he
      · simp only [SW.setOld, hid, if_true, hw, if_false, Option.some.injEq,
          Prod.mk.injEq] at h
        obtain ⟨rfl, rfl⟩ := h
        exact hl
    · cases hr : SW.setOld u rest with
      | none => simp [SW.setOld, hid, hr] at h
      | some r =>
        obtain ⟨rest1, marked⟩ := r
        simp only [SW.setOld, hid, if_false, hr, Option.some.injEq, Prod.mk.injEq] at h
        obtain ⟨rfl, rfl⟩ := h
        intro e he
        rcases List.mem_cons.mp he with rfl | he
        · exact ha
        · exact ih rest1 marked hr hrest e he

theorem setOne_forall (P : smoothWeighted → Prop) (hassign : ∀ v e, P e → P (assign v e))
    (hfresh : ∀ p, P (fresh p)) (st : SW × List Iface) (u : WeightItem)
    (hl : ∀ e ∈ st.1.items, P e) : ∀ e ∈ (SW.setOne st u).1.items, P e := by
  obtain ⟨w, kept⟩ := st
  cases hr : SW.setOld u w.items with
  | none =>
    intro e he
    simp only [SW.setOne, hr, SW.Add, List.mem_append, List.mem_singleton] at he
    rcases he with he | rfl
    · exact hl e he
    · exact hfresh (Iface.str u.ID, u.Weight)
  | some r =>
    obtain ⟨l1, b⟩ := r
    have := setOld_forall P hassign u w.items l1 b hr hl
    cases b with
    | true => simpa [SW.setOne, hr] using this
    | false => simpa [SW.setOne, hr] using hl

theorem SetWeight_forall (P : smoothWeighted → Prop) (hassign : ∀ v e, P e → P (assign v e))
    (hfresh : ∀ p, P (fresh p)) (s : SW) (ups : List WeightItem)
    (hl : ∀ e ∈ s.items, P e) : ∀ e ∈ (s.SetWeight ups).items, P e := by
  have hloop : ∀ (l : List WeightItem) (st : SW × List Iface),
      (∀ e ∈ st.1.items, P e) → ∀ e ∈ (l.foldl SW.setOne st).1.items, P e := by
    intro l
    induction l with
    | nil => intro st h; exact h
    | cons u rest ih =>
      intro st h
      exact ih (SW.setOne st u) (setOne_forall P hassign hfresh st u h)
  rw [SetWeight_eq_filter]
  intro e he
  exact hloop ups (s, []) hl e (List.mem_filter.mp he).1

theorem nextSmoothWeighted_effective {int : Int → Int} (l : List smoothWeighted)
    (h : ∀ e ∈ l, e.EffectiveWeight = e.Weight) :
    ∀ e ∈ (nextSmoothWeighted int l).2, e.EffectiveWeight = e.Weight := by
  by_cases hl : l = []
  · subst hl
    intro e he
    simp [nextSmoothWeighted_nil] at he
  · obtain ⟨pre, x, post, hdec, hr, -, -⟩ := @nextSmoothWeighted_spec int l hl
    rw [hr]
    have hb : ∀ e ∈ l, (bump int e).EffectiveWeight = (bump int e).Weight := fun e he => by
      rw [bump_EffectiveWeight e (h e he), bump_Weight]
      exact h e he
    intro e he
    simp only [List.mem_append, List.mem_cons, List.mem_map] at he
    rcases he with ⟨b, hb1, rfl⟩ | rfl | ⟨b, hb1, rfl⟩
    · exact hb b (by rw [hdec]; exact List.mem_append_left _ hb1)
    · have hx : x ∈ l := by rw [hdec]; exact List.mem_append_right _ (List.mem_cons_self _ _)
      rw [settle_EffectiveWeight _ x (h x hx), settle_Weight]
      exact h x hx
    · exact hb b (by rw [hdec]; exact List.mem_append_right _ (List.mem_cons_of_mem _ hb1))

theorem next_effective {int : Int → Int} (s s1 : SW) (r : Iface) (hs : s.Next int = some (r, s1))
    (h : ∀ e ∈ s.items, e.EffectiveWeight = e.Weight) :
    ∀ e ∈ s1.items, e.EffectiveWeight = e.Weight := by
  obtain ⟨items, n⟩ := s
  simp only at h
  by_cases h0 : n = 0
  · simp [SW.Next, SW.nextWeighted, h0] at hs
    rw [← hs.2]
    exact h
  · by_cases h1 : n = 1
    · cases items with
      | nil => simp [SW.Next, SW.nextWeighted, h1] at hs
      | cons a rest =>
        simp [SW.Next, SW.nextWeighted, h1] at hs
        rw [← hs.2]
        exact h
    · have hitems : s1.items = (nextSmoothWeighted int items).2 := by
        cases hb : (nextSmoothWeighted int items).1 with
        | none =>
          simp [SW.Next, SW.nextWeighted, h0, h1, hb] at hs
          rw [← hs.2]
        | some b =>
          simp [SW.Next, SW.nextWeighted, h0, h1, hb] at hs
          rw [← hs.2]
      rw [hitems]
      exact nextSmoothWeighted_effective items h

/-- The invariant of the reachable states: the count is the number of entries and
every effective weight equals the weight. -/
theorem call_invariant {int : Int → Int} (w w1 : SW) (op : Op) (r : List Iface)
    (hcall : w.call int op = some (r, w1))
    (hn : w.n = w.items.length) (hew : ∀ e ∈ w.items, e.EffectiveWeight = e.Weight) :
    w1.n = w1.items.length ∧ ∀ e ∈ w1.items, e.EffectiveWeight = e.Weight := by
  cases op with
  | Add item weight =>
    simp only [SW.call, Option.some.injEq, Prod.mk.injEq] at hcall
    rw [← hcall.2]
    refine ⟨by simp [SW.Add, hn], ?_⟩
    intro e he
    simp only [SW.Add, List.mem_append, List.mem_singleton] at he
    rcases he with he | rfl
    · exact hew e he
    · rfl
  | Remove rmItem =>
    simp only [SW.call, Option.some.injEq, Prod.mk.injEq] at hcall
    rw [← hcall.2]
    rcases Remove_cases w rmItem with ⟨-, h⟩ | ⟨pre, d, post, hdec, -, -, h⟩
    · rw [h]; exact ⟨hn, hew⟩
    · rw [h]
      refine ⟨?_, ?_⟩
      · simp only [List.length_append]
        rw [hn, hdec]
        simp only [List.length_append, List.length_cons]
        push_cast
        ring
      · intro e he
        apply hew e
        rw [hdec]
        rcases List.mem_append.mp he with he | he
        · exact List.mem_append_left _ he
        · exact List.mem_append_right _ (List.mem_cons_of_mem _ he)
  | RemoveAll =>
    simp only [SW.call, Option.some.injEq, Prod.mk.injEq] at hcall
    rw [← hcall.2]
    exact ⟨by simp [SW.RemoveAll], by intro e he; simp [SW.RemoveAll] at he⟩
  | Reset =>
    simp only [SW.call, Option.some.injEq, Prod.mk.injEq] at hcall
    rw [← hcall.2]
    refine ⟨by simp [SW.Reset, hn], ?_⟩
    intro e he
    simp only [SW.Reset, List.mem_map] at he
    obtain ⟨a, -, rfl⟩ := he
    rfl
  | SetWeight items =>
    simp only [SW.call, Option.some.injEq, Prod.mk.injEq] at hcall
    rw [← hcall.2]
    refine ⟨?_, ?_⟩
    · have := (SetWeight_count w items).2
      omega
    · exact SetWeight_forall (fun e => e.EffectiveWeight = e.Weight)
        (fun v e _ => rfl) (fun p => rfl) w items hew
  | Next =>
    cases hnext : w.Next int with
    | none => simp [SW.call, hnext] at hcall
    | some p =>
      obtain ⟨r1, w2⟩ := p
      simp only [SW.call, hnext, Option.some.injEq, Prod.mk.injEq] at hcall
      rw [← hcall.2]
      obtain ⟨r2, s2, h2, hn2, hf2⟩ := @next_frame int w hn
      rw [hnext] at h2
      simp only [Option.some.injEq, Prod.mk.injEq] at h2
      obtain ⟨-, rfl⟩ := h2
      refine ⟨?_, next_effective w w2 r1 hnext hew⟩
      have hlen : w2.items.length = w.items.length := by
        have := congrArg List.length hf2
        simpa using this
      rw [hn2, hn, hlen]

theorem call_total {int : Int → Int} (w : SW) (op : Op) (hn : w.n = w.items.length) :
    ∃ r w1, w.call int op = some (r, w1) := by
  cases op with
  | Next =>
    obtain ⟨r, s1, h, -, -⟩ := @next_frame int w hn
    exact ⟨[r], s1, by simp [SW.call, h]⟩
  | Add item weight => exact ⟨_, _, rfl⟩
  | Remove rmItem => exact ⟨_, _, rfl⟩
  | RemoveAll => exact ⟨_, _, rfl⟩
  | Reset => exact ⟨_, _, rfl⟩
  | SetWeight items => exact ⟨_, _, rfl⟩

theorem calls_invariant {int : Int → Int} (ops : List Op) (w s : SW) (rs : List Iface)
    (hcalls : SW.calls int ops w = some (rs, s))
    (hn : w.n = w.items.length) (hew : ∀ e ∈ w.items, e.EffectiveWeight = e.Weight) :
    s.n = s.items.length ∧ ∀ e ∈ s.items, e.EffectiveWeight = e.Weight := by
  induction ops generalizing w rs with
  | nil =>
    simp only [SW.calls, Option.some.injEq, Prod.mk.injEq] at hcalls
    rw [← hcalls.2]
    exact ⟨hn, hew⟩
  | cons op rest ih =>
    cases hc : w.call int op with
    | none => simp [SW.calls, hc] at hcalls
    | some p =>
      obtain ⟨r, w1⟩ := p
      obtain ⟨hn1, hew1⟩ := call_invariant w w1 op r hc hn hew
      cases hr : SW.calls int rest w1 with
      | none => simp [SW.calls, hc, hr] at hcalls
      | some q =>
        obtain ⟨rs1, w2⟩ := q
        simp only [SW.calls, hc, hr, Option.some.injEq, Prod.mk.injEq] at hcalls
        obtain ⟨-, rfl⟩ := hcalls
        exact ih w1 rs1 hr hn1 hew1

theorem calls_total {int : Int → Int} (ops : List Op) (w : SW) (hn : w.n = w.items.length)
    (hew : ∀ e ∈ w.items, e.EffectiveWeight = e.Weight) :
    ∃ rs s, SW.calls int ops w = some (rs, s) := by
  induction ops generalizing w with
  | nil => exact ⟨[], w, rfl⟩
  | cons op rest ih =>
    obtain ⟨r, w1, hc⟩ := @call_total int w op hn
    obtain ⟨hn1, hew1⟩ := call_invariant w w1 op r hc hn hew
    obtain ⟨rs, s, hr⟩ := ih w1 hn1 hew1
    exact ⟨r ++ rs, s, by simp [SW.calls, hc, hr]⟩

theorem bump_eq {int : Int → Int} (e : smoothWeighted) :
    bump int e = { Item := e.Item, Weight := e.Weight,
                   CurrentWeight := int (e.CurrentWeight + e.EffectiveWeight),
                   EffectiveWeight := if e.EffectiveWeight < e.Weight
                     then e.EffectiveWeight + 1 else e.EffectiveWeight } := by
  simp only [bump]
  split_ifs <;> rfl

theorem settle_eq {int : Int → Int} (t : Int) (e : smoothWeighted) :
    settle int t e = { Item := e.Item, Weight := e.Weight,
                       CurrentWeight := int (int (e.CurrentWeight + e.EffectiveWeight) - t),
                       EffectiveWeight := if e.EffectiveWeight < e.Weight
                         then e.EffectiveWeight + 1 else e.EffectiveWeight } := by
  simp only [settle, bump_eq]

theorem nextN_build_counts (ws : List (Iface × Int)) (m : Nat) (h2 : 2 ≤ ws.length)
    (hnd : (ws.map Prod.fst).Nodup) (hw : ∀ p ∈ ws, 1 ≤ p.2) :
    ∃ rs s, SW.NextN unbounded (m * ((ws.map Prod.snd).sum).toNat)
        { items := ws.map fresh, n := ws.length } = some (rs, s) ∧
      ∀ p ∈ ws, (rs.count p.1 : Int) = (m : Int) * p.2 := by
  have hne : ws ≠ [] := by
    intro h; subst h; simp at h2
  have hB := balanced_build ws hne hnd hw
  obtain ⟨out, s1, hout, hlen, hB1⟩ := nextN_balanced (ws.map Prod.snd).sum
    (m * ((ws.map Prod.snd).sum).toNat) [] { items := ws.map fresh, n := ws.length }
    hB (by simp) (by simpa using h2)
  refine ⟨out, s1, hout, ?_⟩
  simp only [List.nil_append] at hB1
  intro p hp
  obtain ⟨rs2, s2, hrs2, -, -, hframe⟩ := nextN_frame (m * ((ws.map Prod.snd).sum).toNat)
    { items := ws.map fresh, n := ws.length } (by simp)
  rw [hout] at hrs2
  simp only [Option.some.injEq, Prod.mk.injEq] at hrs2
  obtain ⟨-, rfl⟩ := hrs2
  have hpf : frame (fresh p) ∈ s1.items.map frame := by
    rw [hframe]
    exact List.mem_map.mpr ⟨fresh p, List.mem_map.mpr ⟨p, hp, rfl⟩, rfl⟩
  obtain ⟨e, he, hef⟩ := List.mem_map.mp hpf
  simp only [frame, fresh, Prod.mk.injEq] at hef
  have := balanced_counts _ m out s1.items hB1 hlen e he
  rw [hef.1, hef.2] at this
  exact this

theorem nextWeighted_nil_iff {int : Int → Int} (s : SW) (hn : s.n = s.items.length) :
    (∃ s1, s.nextWeighted int = some (none, s1)) ↔ s.items = [] := by
  obtain ⟨items, n⟩ := s
  simp only at hn
  constructor
  · rintro ⟨s1, h⟩
    by_cases h0 : n = 0
    · subst h0
      cases items with
      | nil => rfl
      | cons a rest => simp at hn; omega
    · by_cases h1 : n = 1
      · cases items with
        | nil => simp [SW.nextWeighted, h1] at h
        | cons a rest => simp [SW.nextWeighted, h1] at h
      · by_cases hl : items = []
        · exact hl
        · obtain ⟨pre, x, post, -, hr, -, -⟩ := @nextSmoothWeighted_spec int items hl
          simp [SW.nextWeighted, h0, h1, hr] at h
  · intro h
    simp only at h
    subst h
    simp only [List.length_nil, Nat.cast_zero] at hn
    subst hn
    exact ⟨{ items := [], n := 0 }, by simp [SW.nextWeighted]⟩

theorem next_nil_iff {int : Int → Int} (s : SW) (hn : s.n = s.items.length)
    (hid : ∀ e ∈ s.items, e.Item ≠ Iface.nil) :
    (∃ s1, s.Next int = some (Iface.nil, s1)) ↔ s.items = [] := by
  obtain ⟨items, n⟩ := s
  simp only at hn hid
  constructor
  · rintro ⟨s1, h⟩
    by_cases hl : items = []
    · exact hl
    · exfalso
      have h0 : ¬ n = 0 := by
        intro h0; subst h0
        cases items with
        | nil => exact hl rfl
        | cons a rest => simp at hn; omega
      by_cases h1 : n = 1
      · cases items with
        | nil => exact hl rfl
        | cons a rest =>
          simp [SW.Next, SW.nextWeighted, h1] at h
          exact hid a (List.mem_cons_self _ _) h.1
      · obtain ⟨pre, x, post, hdec, hr, -, -⟩ := @nextSmoothWeighted_spec int items hl
        simp [SW.Next, SW.nextWeighted, h0, h1, hr, settle_Item] at h
        exact hid x (by rw [hdec]; exact List.mem_append_right _ (List.mem_cons_self _ _)) h.1
  · intro h
    simp only at h
    subst h
    simp only [List.length_nil, Nat.cast_zero] at hn
    subst hn
    exact ⟨{ items := [], n := 0 }, by simp [SW.Next, SW.nextWeighted]⟩

/-! ## Rounds whose sums stay in the range of the type int -/

theorem int64_keepsRange : KeepsRange int64 9223372036854775807 := by
  intro x h1 h2
  simp only [int64]
  omega

theorem unbounded_keepsRange (B : Int) : KeepsRange unbounded B := fun _ _ _ => rfl

theorem totalEffective_nonneg (l : List smoothWeighted) (h : ∀ e ∈ l, 0 ≤ e.EffectiveWeight) :
    0 ≤ totalEffective l := by
  induction l with
  | nil => simp [totalEffective]
  | cons a rest ih =>
    rw [totalEffective_cons]
    have h1 := h a (List.mem_cons_self _ _)
    have h2 := ih (fun e he => h e (List.mem_cons_of_mem _ he))
    omega

theorem effective_le_total (l : List smoothWeighted) (h : ∀ e ∈ l, 0 ≤ e.EffectiveWeight) :
    ∀ e ∈ l, e.EffectiveWeight ≤ totalEffective l := by
  intro e he
  obtain ⟨pre, post, rfl⟩ := List.append_of_mem he
  rw [totalEffective_append, totalEffective_cons]
  have h1 := totalEffective_nonneg pre (fun a ha => h a (List.mem_append_left _ ha))
  have h2 := totalEffective_nonneg post
    (fun a ha => h a (List.mem_append_right _ (List.mem_cons_of_mem _ ha)))
  omega

theorem totalCurrent_lower (T : Int) (l : List smoothWeighted)
    (h : ∀ e ∈ l, -T ≤ e.CurrentWeight) : -((l.length : Int) * T) ≤ totalCurrent l := by
  induction l with
  | nil => simp [totalCurrent]
  | cons a rest ih =>
    rw [totalCurrent_cons]
    have h1 := h a (List.mem_cons_self _ _)
    have h2 := ih (fun e he => h e (List.mem_cons_of_mem _ he))
    have h3 : (((a :: rest).length : Nat) : Int) * T = (rest.length : Int) * T + T := by
      simp only [List.length_cons]
      push_cast
      ring
    rw [h3]
    omega

theorem current_upper (T : Int) (l : List smoothWeighted)
    (h : ∀ e ∈ l, -T ≤ e.CurrentWeight) (hsum : totalCurrent l = 0) :
    ∀ e ∈ l, e.CurrentWeight ≤ (l.length : Int) * T - T := by
  intro e he
  obtain ⟨pre, post, rfl⟩ := List.append_of_mem he
  rw [totalCurrent_append, totalCurrent_cons] at hsum
  have h1 := totalCurrent_lower T pre (fun a ha => h a (List.mem_append_left _ ha))
  have h2 := totalCurrent_lower T post
    (fun a ha => h a (List.mem_append_right _ (List.mem_cons_of_mem _ ha)))
  have h3 : (((pre ++ e :: post).length : Nat) : Int) * T
      = (pre.length : Int) * T + (post.length : Int) * T + T := by
    simp only [List.length_append, List.length_cons]
    push_cast
    ring
  rw [h3]
  omega

theorem bump_inRange {int : Int → Int} {B : Int} (hint : KeepsRange int B)
    (e : smoothWeighted) (h1 : -B ≤ e.CurrentWeight + e.EffectiveWeight)
    (h2 : e.CurrentWeight + e.EffectiveWeight ≤ B) : bump int e = bump unbounded e := by
  rw [bump_eq, bump_eq, hint _ h1 h2]
  rfl

theorem loop_inRange {int : Int → Int} {B : Int} (hint : KeepsRange int B)
    (l : List smoothWeighted) (i : Nat) (t : Int) (best : Option (Nat × smoothWeighted))
    (hcw : ∀ e ∈ l, -B ≤ e.CurrentWeight + e.EffectiveWeight ∧
      e.CurrentWeight + e.EffectiveWeight ≤ B)
    (hew : ∀ e ∈ l, 0 ≤ e.EffectiveWeight) (ht0 : 0 ≤ t) (ht : t + totalEffective l ≤ B) :
    nextSmoothWeightedLoop int l i t best = nextSmoothWeightedLoop unbounded l i t best := by
  induction l generalizing i t best with
  | nil => rfl
  | cons w rest ih =>
    have hw := hcw w (List.mem_cons_self _ _)
    have hw0 := hew w (List.mem_cons_self _ _)
    have hrest0 := totalEffective_nonneg rest (fun e he => hew e (List.mem_cons_of_mem _ he))
    rw [totalEffective_cons] at ht
    have hb : bump int w = bump unbounded w := bump_inRange hint w hw.1 hw.2
    have htot : int (t + w.EffectiveWeight) = unbounded (t + w.EffectiveWeight) :=
      hint _ (by omega) (by omega)
    simp only [nextSmoothWeightedLoop, hb, htot]
    rw [ih (i + 1) (unbounded (t + w.EffectiveWeight)) (pickBest best i (bump unbounded w))
      (fun e he => hcw e (List.mem_cons_of_mem _ he))
      (fun e he => hew e (List.mem_cons_of_mem _ he))
      (by simp only [unbounded]; omega) (by simp only [unbounded]; omega)]

/-- A round whose sums all stay between `-B` and `B` is the round over unbounded
integers. -/
theorem nextSmoothWeighted_inRange {int : Int → Int} {B : Int} (hint : KeepsRange int B)
    (l : List smoothWeighted)
    (hcw : ∀ e ∈ l, -B ≤ e.CurrentWeight + e.EffectiveWeight ∧
      e.CurrentWeight + e.EffectiveWeight ≤ B)
    (hew : ∀ e ∈ l, 0 ≤ e.EffectiveWeight) (hT : totalEffective l ≤ B)
    (hdiff : ∀ e ∈ l, -B ≤ e.CurrentWeight + e.EffectiveWeight - totalEffective l ∧
      e.CurrentWeight + e.EffectiveWeight - totalEffective l ≤ B) :
    nextSmoothWeighted int l = nextSmoothWeighted unbounded l := by
  have hloop := loop_inRange hint l 0 0 none hcw hew (le_refl _) (by omega)
  simp only [nextSmoothWeighted, hloop]
  rcases @loop_best unbounded l 0 0 none with ⟨hr, -⟩ | ⟨pre, x, post, hdec, hr, -, -, -⟩
  · simp only [hr]
  · have hx : x ∈ l := by
      rw [hdec]; exact List.mem_append_right _ (List.mem_cons_self _ _)
    have hval : int ((bump unbounded x).CurrentWeight
          - (nextSmoothWeightedLoop unbounded l 0 0 none).2.1)
        = unbounded ((bump unbounded x).CurrentWeight
          - (nextSmoothWeightedLoop unbounded l 0 0 none).2.1) := by
      rw [loop_total, totalInt_unbounded, zero_add, bump_CurrentWeight_unbounded]
      exact hint _ (hdiff x hx).1 (hdiff x hx).2
    simp only [hr, hval]

theorem balanced_ranges (T B : Int) (hist : List Iface) (l : List smoothWeighted)
    (hB : Balanced T hist l) (h2 : 2 ≤ l.length) (hbound : (l.length : Int) * T ≤ B) :
    (∀ e ∈ l, -B ≤ e.CurrentWeight + e.EffectiveWeight ∧
      e.CurrentWeight + e.EffectiveWeight ≤ B) ∧
    (∀ e ∈ l, 0 ≤ e.EffectiveWeight) ∧ totalEffective l ≤ B ∧
    (∀ e ∈ l, -B ≤ e.CurrentWeight + e.EffectiveWeight - totalEffective l ∧
      e.CurrentWeight + e.EffectiveWeight - totalEffective l ≤ B) := by
  obtain ⟨hT1, hEW, hTot, hCur, hEach, -⟩ := hB
  have hew0 : ∀ e ∈ l, 0 ≤ e.EffectiveWeight := fun e he => by
    have := hEW e he
    omega
  have hup := current_upper T l (fun e he => by have := (hEach e he).1; omega) hCur
  have hle := effective_le_total l hew0
  have hk : 2 * T ≤ (l.length : Int) * T := by
    have h2z : (2 : Int) ≤ (l.length : Int) := by exact_mod_cast h2
    exact mul_le_mul_of_nonneg_right h2z (by omega)
  rw [hTot] at hle
  refine ⟨?_, hew0, by rw [hTot]; omega, ?_⟩
  · intro e he
    have h1 := (hEach e he).1
    have h3 := hup e he
    have h4 := hle e he
    have h5 := hew0 e he
    constructor <;> omega
  · intro e he
    have h1 := (hEach e he).1
    have h3 := hup e he
    have h4 := hle e he
    have h5 := hew0 e he
    rw [hTot]
    constructor <;> omega

theorem next_inRange {int : Int → Int} {B : Int} (hint : KeepsRange int B) (T : Int)
    (hist : List Iface) (s : SW) (hB : Balanced T hist s.items) (h2 : 2 ≤ s.items.length)
    (hbound : (s.items.length : Int) * T ≤ B) : SW.Next int s = SW.Next unbounded s := by
  obtain ⟨h1, h3, h4, h5⟩ := balanced_ranges T B hist s.items hB h2 hbound
  simp only [SW.Next, SW.nextWeighted, nextSmoothWeighted_inRange hint s.items h1 h3 h4 h5]

theorem nextN_inRange {int : Int → Int} {B : Int} (hint : KeepsRange int B) (T : Int)
    (k : Nat) (hist : List Iface) (s : SW) (hB : Balanced T hist s.items)
    (hn : s.n = s.items.length) (h2 : 2 ≤ s.items.length)
    (hbound : (s.items.length : Int) * T ≤ B) :
    SW.NextN int k s = SW.NextN unbounded k s := by
  induction k generalizing hist s with
  | zero => rfl
  | succ k ih =>
    obtain ⟨r, s1, hr, hB1, hn1, h21⟩ := next_balanced T hist s hB hn h2
    obtain ⟨r2, s2, hr2, -, hf2⟩ := @next_frame unbounded s hn
    rw [hr] at hr2
    simp only [Option.some.injEq, Prod.mk.injEq] at hr2
    obtain ⟨-, rfl⟩ := hr2
    have hlen : s1.items.length = s.items.length := by
      have := congrArg List.length hf2
      simpa using this
    simp only [SW.NextN, next_inRange hint T hist s hB h2 hbound, hr]
    rw [ih (hist ++ [r]) s1 hB1 hn1 h21 (by rw [hlen]; exact hbound)]

/-- The counts of C1 for any arithmetic that keeps the range up to `B`, when the
number of candidates times the total weight does not exceed `B`. -/
theorem nextN_counts_inRange {int : Int → Int} {B : Int} (hint : KeepsRange int B)
    (ws : List (Iface × Int)) (m : Nat) (hne : ws ≠ [])
    (hnd : (ws.map Prod.fst).Nodup) (hw : ∀ p ∈ ws, 1 ≤ p.2)
    (hbound : (ws.length : Int) * (ws.map Prod.snd).sum ≤ B) :
    ∃ rs s, SW.NextN int (m * ((ws.map Prod.snd).sum).toNat)
        { items := ws.map fresh, n := ws.length } = some (rs, s) ∧
      ∀ p ∈ ws, (rs.count p.1 : Int) = (m : Int) * p.2 := by
  by_cases h2 : 2 ≤ ws.length
  · have hB := balanced_build ws hne hnd hw
    rw [nextN_inRange hint (ws.map Prod.snd).sum _ [] { items := ws.map fresh, n := ws.length }
      hB (by simp) (by simpa using h2) (by simpa using hbound)]
    exact nextN_build_counts ws m h2 hnd hw
  · cases ws with
    | nil => exact absurd rfl hne
    | cons p rest =>
      cases rest with
      | cons q r => simp at h2
      | nil =>
        have hp := hw p (List.mem_cons_self _ _)
        refine ⟨List.replicate (m * (p.2).toNat) p.1, { items := [fresh p], n := 1 }, ?_, ?_⟩
        · have := @nextN_single int (fresh p) (m * (p.2).toNat)
          simpa [fresh] using this
        · intro q hq
          simp only [List.mem_singleton] at hq
          subst hq
          simp only [List.count_replicate_self]
          push_cast
          rw [Int.toNat_of_nonneg (by omega)]

/-! ## The claims -/

/-- C1 (exact proportionality of Next): for a selector built from the empty
selector by Add calls only, with at least one candidate, pairwise distinct
identities and integer weights all >= 1 (total T, unbounded integers), and for
every m, the first m*T calls of Next succeed and among their results the identity
of each candidate of weight w occurs exactly m*w times. The same holds in the Go
type int (64 bits) whenever the number of candidates times T does not exceed
2^63 - 1, so that no sum of a round wraps. -/
theorem next_exact_proportion (ws : List (Iface × Int)) (m : Nat)
    (hne : ws ≠ []) (hnd : (ws.map Prod.fst).Nodup) (hw : ∀ p ∈ ws, 1 ≤ p.2) :
    (∃ rs s, SW.NextN unbounded (m * ((ws.map Prod.snd).sum).toNat) (SW.build ws)
        = some (rs, s) ∧
      rs.length = m * ((ws.map Prod.snd).sum).toNat ∧
      ∀ p ∈ ws, (rs.count p.1 : Int) = (m : Int) * p.2) ∧
    ((ws.length : Int) * (ws.map Prod.snd).sum ≤ 9223372036854775807 →
      ∃ rs s, SW.NextN int64 (m * ((ws.map Prod.snd).sum).toNat) (SW.build ws)
          = some (rs, s) ∧
        rs.length = m * ((ws.map Prod.snd).sum).toNat ∧
        ∀ p ∈ ws, (rs.count p.1 : Int) = (m : Int) * p.2) := by
  rw [build_eq]
  have hgen : ∀ (int : Int → Int) (B : Int), KeepsRange int B →
      (ws.length : Int) * (ws.map Prod.snd).sum ≤ B →
      ∃ rs s, SW.NextN int (m * ((ws.map Prod.snd).sum).toNat)
          { items := ws.map fresh, n := ws.length } = some (rs, s) ∧
        rs.length = m * ((ws.map Prod.snd).sum).toNat ∧
        ∀ p ∈ ws, (rs.count p.1 : Int) = (m : Int) * p.2 := by
    intro int B hint hbound
    obtain ⟨rs, s, h, hc⟩ := nextN_counts_inRange hint ws m hne hnd hw hbound
    obtain ⟨rs2, s2, h2, hlen, -, -⟩ := @nextN_frame int (m * ((ws.map Prod.snd).sum).toNat)
      { items := ws.map fresh, n := ws.length } (by simp)
    rw [h] at h2
    simp only [Option.some.injEq, Prod.mk.injEq] at h2
    obtain ⟨rfl, rfl⟩ := h2
    exact ⟨rs, s, h, hlen, hc⟩
  exact ⟨hgen unbounded _ (unbounded_keepsRange _) (le_refl _),
    fun hbound => hgen int64 _ int64_keepsRange hbound⟩

/-- Instances of C1 from the test: weights 5, 2, 3 and 100 calls give the counts
50, 20, 30; weights 7, 9, 13 and 29000 calls give 7000, 9000, 13000; both over
unbounded integers and in the Go type int. -/
theorem next_exact_proportion_witness :
    (∃ rs s, SW.NextN unbounded 100 (((SW.empty.Add (Iface.str "server1") 5).Add
          (Iface.str "server2") 2).Add (Iface.str "server3") 3) = some (rs, s) ∧
        rs.count (Iface.str "server1") = 50 ∧ rs.count (Iface.str "server2") = 20 ∧
        rs.count (Iface.str "server3") = 30) ∧
    (∃ rs s, SW.NextN int64 29000 (((SW.empty.Add (Iface.str "server1") 7).Add
          (Iface.str "server2") 9).Add (Iface.str "server3") 13) = some (rs, s) ∧
        rs.count (Iface.str "server1") = 7000 ∧ rs.count (Iface.str "server2") = 9000 ∧
        rs.count (Iface.str "server3") = 13000) := by
  constructor
  · obtain ⟨rs, s, h, -, hc⟩ := (next_exact_proportion
      [(Iface.str "server1", 5), (Iface.str "server2", 2), (Iface.str "server3", 3)] 10
      (by decide) (by decide) (by decide)).1
    have h1 := hc (Iface.str "server1", 5) (by decide)
    have h2 := hc (Iface.str "server2", 2) (by decide)
    have h3 := hc (Iface.str "server3", 3) (by decide)
    simp only at h1 h2 h3
    exact ⟨rs, s, h, by omega, by omega, by omega⟩
  · obtain ⟨rs, s, h, -, hc⟩ := (next_exact_proportion
      [(Iface.str "server1", 7), (Iface.str "server2", 9), (Iface.str "server3", 13)] 1000
      (by decide) (by decide) (by decide)).2 (by decide)
    have h1 := hc (Iface.str "server1", 7) (by decide)
    have h2 := hc (Iface.str "server2", 9) (by decide)
    have h3 := hc (Iface.str "server3", 13) (by decide)
    simp only at h1 h2 h3
    exact ⟨rs, s, h, by omega, by omega, by omega⟩

/-- C2 (no-burst sequence): after Add(A,5), Add(B,1), Add(C,1) on the empty
selector, seven calls of Next succeed and return A, A, B, A, C, A, A in that
order (for all identities A, B, C, in particular pairwise distinct ones), in the
Go type int and over unbounded integers alike. -/
theorem no_burst_sequence (A B C : Iface) :
    (∃ s, SW.NextN int64 7 (((SW.empty.Add A 5).Add B 1).Add C 1)
      = some ([A, A, B, A, C, A, A], s)) ∧
    (∃ s, SW.NextN unbounded 7 (((SW.empty.Add A 5).Add B 1).Add C 1)
      = some ([A, A, B, A, C, A, A], s)) := by
  constructor
  · simp [SW.NextN, SW.Next, SW.nextWeighted, nextSmoothWeighted, nextSmoothWeightedLoop, bump,
      pickBest, SW.Add, SW.empty, int64]
  · simp [SW.NextN, SW.Next, SW.nextWeighted, nextSmoothWeighted, nextSmoothWeightedLoop, bump,
      pickBest, SW.Add, SW.empty, unbounded]

/-- C9 (single-candidate fast path): a selector holding exactly one entry with
count 1, whatever its weight, currentWeight and effectiveWeight, returns that
entry's identity on Next and is left unchanged; hence so does every one of any
number of successive calls. No arithmetic takes place: this holds for every
reduction `int`. -/
theorem next_single_candidate (int : Int → Int) (e : smoothWeighted) (k : Nat) :
    SW.Next int { items := [e], n := 1 } = some (e.Item, { items := [e], n := 1 }) ∧
    SW.NextN int k { items := [e], n := 1 }
      = some (List.replicate k e.Item, { items := [e], n := 1 }) := by
  refine ⟨?_, nextN_single e k⟩
  simp [SW.Next, SW.nextWeighted]

/-- C10 (empty selector): when the count is 0, Next returns the nil interface
without panicking and leaves the state unchanged; this covers the new selector,
any selector after RemoveAll, and a one-entry selector after Remove of its entry.
No arithmetic takes place: this holds for every reduction `int`. -/
theorem next_empty_selector (int : Int → Int) :
    (∀ items : List smoothWeighted,
      SW.Next int { items := items, n := 0 }
        = some (Iface.nil, { items := items, n := 0 })) ∧
    SW.Next int SW.empty = some (Iface.nil, SW.empty) ∧
    (∀ s : SW, SW.Next int s.RemoveAll = some (Iface.nil, SW.empty)) ∧
    (∀ e : smoothWeighted,
      SW.Next int (SW.Remove { items := [e], n := 1 } e.Item)
        = some (Iface.nil, SW.empty)) := by
  refine ⟨?_, ?_, ?_, ?_⟩
  · intro items
    simp [SW.Next, SW.nextWeighted]
  · simp [SW.Next, SW.nextWeighted, SW.empty]
  · intro s
    simp [SW.Next, SW.nextWeighted, SW.RemoveAll, SW.empty]
  · intro e
    simp [SW.Next, SW.nextWeighted, SW.Remove, SW.remove, SW.empty, List.findIdx?]

/-- C3 (Reset reproduces the run): for a selector built from the empty selector
by Add calls only (any identities, any weights), any k and any m, the k calls of
Next succeed, and Reset after them followed by m calls of Next yields the same
m results (and the same final state) as m calls of Next on the selector as built.
This holds for every reduction `int`, so in the Go type int and over unbounded
integers. -/
theorem reset_reproduces_run (int : Int → Int) (adds : List (Iface × Int)) (k m : Nat) :
    ∃ rs1 s1 rs s2, SW.NextN int k (SW.build adds) = some (rs1, s1) ∧
      SW.NextN int m (SW.build adds) = some (rs, s2) ∧ rs.length = m ∧
      SW.NextN int m s1.Reset = some (rs, s2) := by
  have hn : (SW.build adds).n = (SW.build adds).items.length := by
    rw [build_eq]; simp
  obtain ⟨rs1, s1, h1, -, hn1, hf1⟩ := @nextN_frame int k (SW.build adds) hn
  obtain ⟨rs, s2, h2, hl, -, -⟩ := @nextN_frame int m (SW.build adds) hn
  refine ⟨rs1, s1, rs, s2, h1, h2, hl, ?_⟩
  have hreset : s1.Reset = SW.build adds := by
    rw [reset_eq_of_frame, hn1, hf1, ← reset_eq_of_frame, reset_build]
  rw [hreset, h2]

/-- C4 (SetWeight reconciliation equals a freshly built selector): for a selector
built by Add calls only, with pairwise distinct string identities, and an update
list with pairwise distinct IDs, the state after SetWeight (entries with identity,
weight, currentWeight, effectiveWeight, and the count) is the state of the
selector built by Add calls of every pre-existing identity named with a weight
>= 1, in original order with the update's weight, followed by every update whose
ID was not pre-existing, in update order with the update's weight. -/
theorem SetWeight_reconciles (adds : List (String × Int)) (ups : List WeightItem)
    (hadds : (adds.map Prod.fst).Nodup) (hups : (ups.map (fun u => u.ID)).Nodup) :
    (SW.build (adds.map (fun p => (Iface.str p.1, p.2)))).SetWeight ups
      = SW.build (reconciled adds ups) := by
  have hids : ((adds.map (fun q => (Iface.str q.1, q.2))).map fresh).map (fun e => e.Item)
      = adds.map (fun p => Iface.str p.1) := by
    simp [List.map_map, Function.comp_def, fresh]
  have hnd : (((adds.map (fun q => (Iface.str q.1, q.2))).map fresh).map
      (fun e => e.Item)).Nodup := by
    rw [hids]
    have : adds.map (fun p => Iface.str p.1) = (adds.map Prod.fst).map Iface.str := by
      simp [List.map_map, Function.comp_def]
    rw [this]
    exact hadds.map (fun a b h => Iface.str.inj h)
  have hitems : ((SW.build (adds.map (fun p => (Iface.str p.1, p.2)))).SetWeight ups).items
      = (reconciled adds ups).map fresh := by
    rw [build_eq, SetWeight_items_eq _ ups hnd hups]
    simp only [hids, List.filterMap_append, reconciled, List.map_append]
    congr 1
    · rw [List.filterMap_map, List.map_filterMap]
      apply List.filterMap_congr
      intro p hp
      simp only [Function.comp_apply, foldl_focusStep_existing adds ups hadds hups p hp]
      cases hfind : ups.find? (fun u => decide (u.ID = p.1)) with
      | none => simp
      | some u => by_cases hw : 1 ≤ u.Weight <;> simp [hw]
    · rw [List.filterMap_map]
      conv_rhs => rw [List.map_map]
      have hq : (fun u : WeightItem =>
            decide (Iface.str u.ID ∉ adds.map (fun p => Iface.str p.1)))
          = (fun u => decide (u.ID ∉ adds.map Prod.fst)) := by
        funext u
        simp
      rw [hq]
      apply filterMap_eq_map_of_forall
      intro u hu
      have hu2 := List.mem_filter.mp hu
      have hnew : Iface.str u.ID ∉
          ((adds.map (fun q => (Iface.str q.1, q.2))).map fresh).map (fun e => e.Item) := by
        rw [hids]
        have := hu2.2
        simp only [decide_eq_true_eq] at this
        intro hmem
        obtain ⟨p, hp, hpe⟩ := List.mem_map.mp hmem
        exact this (List.mem_map.mpr ⟨p, hp, Iface.str.inj hpe⟩)
      have := foldl_focusStep_new
        { items := (adds.map (fun q => (Iface.str q.1, q.2))).map fresh,
          n := ((adds.map (fun q => (Iface.str q.1, q.2))).length : Int) }
        ups hups u hu2.1 hnew
      simp only [List.map_map] at this
      simp [this]
  have hcount := (SetWeight_count (SW.build (adds.map (fun p => (Iface.str p.1, p.2)))) ups).2
  have hn : ((SW.build (adds.map (fun p => (Iface.str p.1, p.2)))).SetWeight ups).n
      = ((reconciled adds ups).length : Int) := by
    have hlen : (((SW.build (adds.map (fun p => (Iface.str p.1, p.2)))).SetWeight
        ups).items.length : Int) = ((reconciled adds ups).length : Int) := by
      rw [hitems]
      simp
    have hs0 : (SW.build (adds.map (fun p => (Iface.str p.1, p.2)))).n
        - ((SW.build (adds.map (fun p => (Iface.str p.1, p.2)))).items.length : Int) = 0 := by
      rw [build_eq]
      simp
    omega
  rw [build_eq (reconciled adds ups)]
  cases hR : (SW.build (adds.map (fun p => (Iface.str p.1, p.2)))).SetWeight ups with
  | mk items n =>
    rw [hR] at hitems hn
    simp only at hitems hn
    rw [hitems, hn]

/-- Instance of C4 on the input of the test of SetWeight: the result is the
selector built by Add(server1,1), Add(server4,2), Add(server5,5). -/
theorem SetWeight_reconciles_witness :
    (SW.build [(Iface.str "server1", 5), (Iface.str "server2", 2),
        (Iface.str "server3", 3), (Iface.str "server4", 4)]).SetWeight
      [{ ID := "server1", Weight := 1 }, { ID := "server2", Weight := 0 },
        { ID := "server4", Weight := 2 }, { ID := "server5", Weight := 5 }]
    = ((SW.empty.Add (Iface.str "server1") 1).Add (Iface.str "server4") 2).Add
        (Iface.str "server5") 5 :=
  (SetWeight_reconciles [("server1", 5), ("server2", 2), ("server3", 3), ("server4", 4)]
    [{ ID := "server1", Weight := 1 }, { ID := "server2", Weight := 0 },
      { ID := "server4", Weight := 2 }, { ID := "server5", Weight := 5 }]
    (by decide) (by decide)).trans (by decide)

/-- C5, the claim as stated fails: on the selector of the test (server1:5,
server2:2, server3:3, server4:4) with the updates of the test, server2 is named
with weight 0 and with no other weight, and after SetWeight no entry has the
identity server2. -/
theorem SetWeight_nonpositive_counterexample :
    ¬ ∃ e ∈ (SW.SetWeight
        (SW.build [(Iface.str "server1", 5), (Iface.str "server2", 2),
          (Iface.str "server3", 3), (Iface.str "server4", 4)])
        [{ ID := "server1", Weight := 1 }, { ID := "server2", Weight := 0 },
          { ID := "server4", Weight := 2 }, { ID := "server5", Weight := 5 }]).items,
      e.Item = Iface.str "server2" := by
  decide

/-- C5 as amended: for a selector with pairwise distinct identities and an update
list that names an existing identity x only with weights <= 0, after SetWeight no
entry of the selector has the identity x (the identity is not marked as kept, so
its entry is pruned). -/
theorem SetWeight_nonpositive_prunes (s : SW) (ups : List WeightItem) (x : String)
    (_hnodup : (s.items.map (fun e => e.Item)).Nodup)
    (hex : ∃ e ∈ s.items, e.Item = Iface.str x)
    (_hnamed : ∃ u ∈ ups, u.ID = x)
    (hw : ∀ u ∈ ups, u.ID = x → u.Weight ≤ 0) :
    ∀ e ∈ (s.SetWeight ups).items, e.Item ≠ Iface.str x := by
  rw [← focus_eq_nil_iff, SetWeight_focus]
  cases hf : focus (Iface.str x) s.items with
  | nil =>
    obtain ⟨e, he, hx⟩ := hex
    exact absurd hx ((focus_eq_nil_iff _ _).mp hf e he)
  | cons a r =>
    rw [foldl_focusStep_nonpositive (Iface.str x) ups a r false
      (fun u hu h => hw u hu (Iface.str.inj h))]
    simp

/-- Instance of the amended C5: server2 exists with weight 2 and is named with
weight 0 only; no entry of identity server2 is left. -/
theorem SetWeight_nonpositive_prunes_witness :
    (∃ e ∈ (SW.build [(Iface.str "server1", 5), (Iface.str "server2", 2)]).items,
      e.Item = Iface.str "server2") ∧
    (∀ e ∈ (SW.SetWeight
        (SW.build [(Iface.str "server1", 5), (Iface.str "server2", 2)])
        [{ ID := "server1", Weight := 1 }, { ID := "server2", Weight := 0 }]).items,
      e.Item ≠ Iface.str "server2") :=
  ⟨by decide,
   SetWeight_nonpositive_prunes
    (SW.build [(Iface.str "server1", 5), (Iface.str "server2", 2)])
    [{ ID := "server1", Weight := 1 }, { ID := "server2", Weight := 0 }] "server2"
    (by decide) (by decide) (by decide) (by decide)⟩

/-- C6, the claim as stated fails in its count clause: on the selector and the
updates of the test of SetWeight the count is 4 before the call, two of the four
entries (server2, server3) are removed, and the count after the call is 3, not
4 - 2, because the update loop appended one entry (server5). -/
theorem SetWeight_count_counterexample :
    (SW.build [(Iface.str "server1", 5), (Iface.str "server2", 2),
        (Iface.str "server3", 3), (Iface.str "server4", 4)]).n = 4 ∧
    ((SW.build [(Iface.str "server1", 5), (Iface.str "server2", 2),
        (Iface.str "server3", 3), (Iface.str "server4", 4)]).items.filter
      (fun e => decide (e.Item ∉
        ((SW.build [(Iface.str "server1", 5), (Iface.str "server2", 2),
            (Iface.str "server3", 3), (Iface.str "server4", 4)]).SetWeight
          [{ ID := "server1", Weight := 1 }, { ID := "server2", Weight := 0 },
            { ID := "server4", Weight := 2 }, { ID := "server5", Weight := 5 }]).items.map
          (fun a => a.Item)))).length = 2 ∧
    ((SW.build [(Iface.str "server1", 5), (Iface.str "server2", 2),
        (Iface.str "server3", 3), (Iface.str "server4", 4)]).SetWeight
      [{ ID := "server1", Weight := 1 }, { ID := "server2", Weight := 0 },
        { ID := "server4", Weight := 2 }, { ID := "server5", Weight := 5 }]).n = 3 := by
  decide

/-- C6 as amended: for every selector state, also with several entries of one
identity, and every update list, after SetWeight every entry has an identity that
occurs as an ID in the update list; the entries are those left by the update loop
minus the removed ones; and the count after the call is the count before the call
plus the number of entries that the update loop appended minus the number of
entries removed, so that count minus number of entries is the same before and
after the call. -/
theorem SetWeight_prunes_unnamed (s : SW) (ups : List WeightItem) :
    (∀ e ∈ (s.SetWeight ups).items, ∃ u ∈ ups, e.Item = Iface.str u.ID) ∧
    List.Sublist (s.SetWeight ups).items (s.setLoop ups).1.items ∧
    (s.SetWeight ups).n = (s.setLoop ups).1.n -
      (((s.setLoop ups).1.items.length : Int) - ((s.SetWeight ups).items.length : Int)) ∧
    (s.SetWeight ups).n - ((s.SetWeight ups).items.length : Int)
      = s.n - (s.items.length : Int) ∧
    (∃ appended removed : Nat,
      (s.setLoop ups).1.items.length = s.items.length + appended ∧
      (s.SetWeight ups).items.length + removed = (s.setLoop ups).1.items.length ∧
      (s.SetWeight ups).n = s.n + (appended : Int) - (removed : Int)) := by
  have hsub : List.Sublist (s.SetWeight ups).items (s.setLoop ups).1.items := by
    rw [SetWeight_eq_filter]
    exact List.filter_sublist _
  refine ⟨SetWeight_named s ups, hsub, (SetWeight_count s ups).1, (SetWeight_count s ups).2, ?_⟩
  obtain ⟨C, hm, -, hn, -⟩ := foldl_setOne_ids ups (s, [])
  have hlen : (s.setLoop ups).1.items.length = s.items.length + C.length := by
    have := congrArg List.length hm
    simpa [SW.setLoop] using this
  have hle := hsub.length_le
  refine ⟨C.length, (s.setLoop ups).1.items.length - (s.SetWeight ups).items.length,
    hlen, by omega, ?_⟩
  have h1 := (SetWeight_count s ups).1
  have hn2 : (s.setLoop ups).1.n = s.n + (C.length : Int) := hn
  omega

/-- C7 (SetWeight overwrites the weight but preserves smoothing progress): for a
selector with pairwise distinct identities and arbitrary counters, and an update
list that names the identity x of an existing entry e exactly once, with a weight
v >= 1, after SetWeight there is exactly one entry of identity x; its weight and
effectiveWeight are v and its currentWeight is that of e; and the surviving
pre-existing entries come first, their identities in the original relative
order, followed only by entries of identities that were not present before. -/
theorem SetWeight_overwrites_weight (s : SW) (ups1 ups2 : List WeightItem) (x : String)
    (v : Int) (e : smoothWeighted)
    (hnodup : (s.items.map (fun a => a.Item)).Nodup)
    (he : e ∈ s.items) (hx : e.Item = Iface.str x) (hv : 1 ≤ v)
    (h1 : ∀ u ∈ ups1, u.ID ≠ x) (h2 : ∀ u ∈ ups2, u.ID ≠ x) :
    focus (Iface.str x) (s.SetWeight (ups1 ++ { ID := x, Weight := v } :: ups2)).items
      = [{ Item := Iface.str x, Weight := v, CurrentWeight := e.CurrentWeight,
           EffectiveWeight := v }] ∧
    ∃ P Q, (s.SetWeight (ups1 ++ { ID := x, Weight := v } :: ups2)).items = P ++ Q ∧
      List.Sublist (P.map (fun a => a.Item)) (s.items.map (fun a => a.Item)) ∧
      (∀ q ∈ Q, q.Item ∉ s.items.map (fun a => a.Item)) := by
  refine ⟨?_, SetWeight_layout s _⟩
  have hf : focus (Iface.str x) s.items = [e] := hx ▸ focus_of_nodup s.items e hnodup he
  rw [SetWeight_focus, foldl_focusStep_once x v ups1 ups2 _ h1 h2, hf]
  simp [focusStep, hv, assign, hx]

/-- Instance of C7: entry b, with currentWeight 1 after a round, gets weight 4 and
keeps its currentWeight. -/
theorem SetWeight_overwrites_weight_witness :
    focus (Iface.str "b")
        (SW.SetWeight
          { items := [{ Item := Iface.str "a", Weight := 5, CurrentWeight := -2,
                        EffectiveWeight := 5 },
                      { Item := Iface.str "b", Weight := 1, CurrentWeight := 1,
                        EffectiveWeight := 1 }], n := 2 }
          ([{ ID := "a", Weight := 3 }] ++ { ID := "b", Weight := 4 } ::
            [{ ID := "c", Weight := 2 }])).items
      = [{ Item := Iface.str "b", Weight := 4, CurrentWeight := 1, EffectiveWeight := 4 }] :=
  (SetWeight_overwrites_weight
    { items := [{ Item := Iface.str "a", Weight := 5, CurrentWeight := -2,
                  EffectiveWeight := 5 },
                { Item := Iface.str "b", Weight := 1, CurrentWeight := 1,
                  EffectiveWeight := 1 }], n := 2 }
    [{ ID := "a", Weight := 3 }] [{ ID := "c", Weight := 2 }] "b" 4
    { Item := Iface.str "b", Weight := 1, CurrentWeight := 1, EffectiveWeight := 1 }
    (by decide) (by decide) rfl (by decide) (by decide) (by decide)).1

/-- C8 (SetWeight adds an unknown identity with whatever weight is given): for
every selector state with no entry of identity x and every update list that
names x exactly once, with any integer weight v, after SetWeight there is exactly
one entry of identity x, with weight = effectiveWeight = v and currentWeight = 0,
and it lies after all surviving pre-existing entries: the entries split into the
surviving pre-existing ones followed by entries of identities that were not
present before, and the entry of x is among the latter. -/
theorem SetWeight_adds_unknown (s : SW) (ups1 ups2 : List WeightItem) (x : String) (v : Int)
    (hx : ∀ e ∈ s.items, e.Item ≠ Iface.str x)
    (h1 : ∀ u ∈ ups1, u.ID ≠ x) (h2 : ∀ u ∈ ups2, u.ID ≠ x) :
    focus (Iface.str x) (s.SetWeight (ups1 ++ { ID := x, Weight := v } :: ups2)).items
      = [{ Item := Iface.str x, Weight := v, CurrentWeight := 0, EffectiveWeight := v }] ∧
    ∃ P Q, (s.SetWeight (ups1 ++ { ID := x, Weight := v } :: ups2)).items = P ++ Q ∧
      (∀ p ∈ P, p.Item ∈ s.items.map (fun a => a.Item)) ∧
      (∀ q ∈ Q, q.Item ∉ s.items.map (fun a => a.Item)) ∧
      ({ Item := Iface.str x, Weight := v, CurrentWeight := 0, EffectiveWeight := v }
        : smoothWeighted) ∈ Q := by
  have hf : focus (Iface.str x) s.items = [] := (focus_eq_nil_iff _ _).mpr hx
  have hfocus : focus (Iface.str x)
      (s.SetWeight (ups1 ++ { ID := x, Weight := v } :: ups2)).items
      = [{ Item := Iface.str x, Weight := v, CurrentWeight := 0, EffectiveWeight := v }] := by
    rw [SetWeight_focus, foldl_focusStep_once x v ups1 ups2 _ h1 h2, hf]
    simp [focusStep, fresh]
  refine ⟨hfocus, ?_⟩
  obtain ⟨P, Q, hPQ, hsub, hQ⟩ := SetWeight_layout s (ups1 ++ { ID := x, Weight := v } :: ups2)
  have hP : ∀ p ∈ P, p.Item ∈ s.items.map (fun a => a.Item) := fun p hp =>
    hsub.subset (List.mem_map.mpr ⟨p, hp, rfl⟩)
  refine ⟨P, Q, hPQ, hP, hQ, ?_⟩
  have hmem : ({ Item := Iface.str x, Weight := v, CurrentWeight := 0, EffectiveWeight := v }
      : smoothWeighted) ∈ focus (Iface.str x) (P ++ Q) := by
    rw [← hPQ, hfocus]
    exact List.mem_singleton_self _
  have hmem2 := (List.mem_filter.mp hmem).1
  rcases List.mem_append.mp hmem2 with h | h
  · exfalso
    obtain ⟨a, ha, haeq⟩ := List.mem_map.mp (hP _ h)
    exact hx a ha haeq
  · exact h

/-- Instance of C8: the absent identity c is added with the weight -4, on a
selector that holds two entries of identity a. -/
theorem SetWeight_adds_unknown_witness :
    focus (Iface.str "c")
        (SW.SetWeight
          { items := [{ Item := Iface.str "a", Weight := 5, CurrentWeight := -2,
                        EffectiveWeight := 5 },
                      { Item := Iface.str "a", Weight := 1, CurrentWeight := 1,
                        EffectiveWeight := 1 }], n := 2 }
          ([{ ID := "a", Weight := 3 }] ++ { ID := "c", Weight := -4 } ::
            [{ ID := "d", Weight := 2 }])).items
      = [{ Item := Iface.str "c", Weight := -4, CurrentWeight := 0, EffectiveWeight := -4 }] :=
  (SetWeight_adds_unknown
    { items := [{ Item := Iface.str "a", Weight := 5, CurrentWeight := -2,
                  EffectiveWeight := 5 },
                { Item := Iface.str "a", Weight := 1, CurrentWeight := 1,
                  EffectiveWeight := 1 }], n := 2 }
    [{ ID := "a", Weight := 3 }] [{ ID := "d", Weight := 2 }] "c" (-4)
    (by decide) (by decide) (by decide)).1

/-- C11 (Remove deletes the first match only and is a no-op otherwise): for every
selector state and identity x, when the entries split as pre ++ d :: post with d
the first entry of identity x, Remove(x) leaves pre ++ post (all other entries,
later entries of identity x included, unchanged and in order) and lowers the
count by 1; when no entry has identity x the state is unchanged; and one of the
two cases always applies. -/
theorem Remove_first_match_only (s : SW) (x : Iface) :
    (∀ pre d post, s.items = pre ++ d :: post → (∀ e ∈ pre, e.Item ≠ x) → d.Item = x →
      s.Remove x = { items := pre ++ post, n := s.n - 1 }) ∧
    ((∀ e ∈ s.items, e.Item ≠ x) → s.Remove x = s) ∧
    ((∀ e ∈ s.items, e.Item ≠ x) ∨
      ∃ pre d post, s.items = pre ++ d :: post ∧ (∀ e ∈ pre, e.Item ≠ x) ∧ d.Item = x) := by
  refine ⟨?_, Remove_absent s x, exists_first_match s.items x⟩
  intro pre d post hdec hpre hd
  obtain ⟨items, n⟩ := s
  simp only at hdec
  subst hdec
  subst hd
  exact Remove_first pre post d n hpre

/-- Instance of C11: of two entries of identity a around an entry b, Remove(a)
deletes the first one only; Remove(c) changes nothing. -/
theorem Remove_first_match_only_witness :
    SW.Remove { items := [{ Item := Iface.str "a", Weight := 1, CurrentWeight := 0,
                            EffectiveWeight := 1 },
                          { Item := Iface.str "b", Weight := 2, CurrentWeight := 0,
                            EffectiveWeight := 2 },
                          { Item := Iface.str "a", Weight := 3, CurrentWeight := 0,
                            EffectiveWeight := 3 }], n := 3 } (Iface.str "a")
      = { items := [{ Item := Iface.str "b", Weight := 2, CurrentWeight := 0,
                      EffectiveWeight := 2 },
                    { Item := Iface.str "a", Weight := 3, CurrentWeight := 0,
                      EffectiveWeight := 3 }], n := 2 } :=
  (Remove_first_match_only
    { items := [{ Item := Iface.str "a", Weight := 1, CurrentWeight := 0,
                  EffectiveWeight := 1 },
                { Item := Iface.str "b", Weight := 2, CurrentWeight := 0,
                  EffectiveWeight := 2 },
                { Item := Iface.str "a", Weight := 3, CurrentWeight := 0,
                  EffectiveWeight := 3 }], n := 3 } (Iface.str "a")).1
    [] { Item := Iface.str "a", Weight := 1, CurrentWeight := 0, EffectiveWeight := 1 }
    [{ Item := Iface.str "b", Weight := 2, CurrentWeight := 0, EffectiveWeight := 2 },
     { Item := Iface.str "a", Weight := 3, CurrentWeight := 0, EffectiveWeight := 3 }]
    rfl (by decide) rfl

/-- C12 (Add appends without validation): for every selector state, identity and
integer weight v (also v <= 0, also an identity already present), after Add the
entries are the original ones, unchanged, followed by one new entry with that
identity, weight = effectiveWeight = v and currentWeight = 0, and the count is
increased by 1. -/
theorem Add_appends (s : SW) (item : Iface) (v : Int) :
    s.Add item v
      = { items := s.items ++ [{ Item := item, Weight := v, CurrentWeight := 0,
                                 EffectiveWeight := v }],
          n := s.n + 1 } := by
  rfl

/-- C13 (Reset postcondition): for every selector state, after Reset every entry
has effectiveWeight equal to its weight and currentWeight 0; the identities and
weights of the entries, their order and number, and the count are unchanged; and
Reset after Reset gives the same state as one Reset. -/
theorem Reset_postcondition (s : SW) :
    (∀ e ∈ s.Reset.items, e.EffectiveWeight = e.Weight ∧ e.CurrentWeight = 0) ∧
    s.Reset.items.map (fun e => (e.Item, e.Weight)) = s.items.map (fun e => (e.Item, e.Weight)) ∧
    s.Reset.items.length = s.items.length ∧
    s.Reset.n = s.n ∧
    s.Reset.Reset = s.Reset := by
  refine ⟨?_, ?_, ?_, rfl, ?_⟩
  · intro e he
    simp only [SW.Reset, List.mem_map] at he
    obtain ⟨a, -, rfl⟩ := he
    exact ⟨rfl, rfl⟩
  · simp [SW.Reset, List.map_map, Function.comp_def]
  · simp [SW.Reset]
  · simp [SW.Reset, List.map_map, Function.comp_def]

/-- C14 (RemoveAll returns the selector to its initial empty state): for every
selector state, after RemoveAll there are no entries and the count is 0, which is
the new empty selector, so every subsequent sequence of Add, Remove, RemoveAll,
Reset, SetWeight and Next calls gives the same results and the same state as on a
new empty selector (the capacity that the slice keeps is not observable by these
calls), for every reduction `int`; as in the test, RemoveAll, then Add of 7, 9,
13, then 29000 calls of Next give the counts 7000, 9000, 13000, in the Go type
int and over unbounded integers. -/
theorem RemoveAll_initial_state (s : SW) :
    s.RemoveAll.items = [] ∧ s.RemoveAll.n = 0 ∧ s.RemoveAll = SW.empty ∧
    (∀ (int : Int → Int) (ops : List Op),
      SW.calls int ops s.RemoveAll = SW.calls int ops SW.empty) ∧
    (∃ rs s1, SW.NextN int64 29000 (((s.RemoveAll.Add (Iface.str "server1") 7).Add
          (Iface.str "server2") 9).Add (Iface.str "server3") 13) = some (rs, s1) ∧
        rs.count (Iface.str "server1") = 7000 ∧ rs.count (Iface.str "server2") = 9000 ∧
        rs.count (Iface.str "server3") = 13000) ∧
    (∃ rs s1, SW.NextN unbounded 29000 (((s.RemoveAll.Add (Iface.str "server1") 7).Add
          (Iface.str "server2") 9).Add (Iface.str "server3") 13) = some (rs, s1) ∧
        rs.count (Iface.str "server1") = 7000 ∧ rs.count (Iface.str "server2") = 9000 ∧
        rs.count (Iface.str "server3") = 13000) := by
  have hgen : ∀ (int : Int → Int), KeepsRange int 9223372036854775807 →
      ∃ rs s1, SW.NextN int 29000 (((s.RemoveAll.Add (Iface.str "server1") 7).Add
          (Iface.str "server2") 9).Add (Iface.str "server3") 13) = some (rs, s1) ∧
        rs.count (Iface.str "server1") = 7000 ∧ rs.count (Iface.str "server2") = 9000 ∧
        rs.count (Iface.str "server3") = 13000 := by
    intro int hint
    obtain ⟨rs, s1, h, hc⟩ := nextN_counts_inRange hint
      [(Iface.str "server1", 7), (Iface.str "server2", 9), (Iface.str "server3", 13)] 1000
      (by decide) (by decide) (by decide) (by decide)
    have h1 := hc (Iface.str "server1", 7) (by decide)
    have h2 := hc (Iface.str "server2", 9) (by decide)
    have h3 := hc (Iface.str "server3", 13) (by decide)
    simp only at h1 h2 h3
    exact ⟨rs, s1, h, by omega, by omega, by omega⟩
  exact ⟨rfl, rfl, rfl, fun int ops => rfl, hgen int64 int64_keepsRange,
    hgen unbounded (unbounded_keepsRange _)⟩

/-- C16, the claim as stated fails: a candidate added with the weight -1 has the
effectiveWeight -1 immediately after a Reset, and immediately after a Next on two
candidates of weights -1 and -2, so 0 <= effectiveWeight does not hold there (in
the Go type int, and for the Next also over unbounded integers). -/
theorem effective_range_counterexample :
    (∃ rs s, SW.calls int64 [Op.Add (Iface.str "a") (-1), Op.Reset] SW.empty = some (rs, s) ∧
      ∃ e ∈ s.items, ¬ (0 ≤ e.EffectiveWeight ∧ e.EffectiveWeight ≤ e.Weight)) ∧
    (∃ rs s, SW.calls int64 [Op.Add (Iface.str "a") (-1), Op.Add (Iface.str "b") (-2), Op.Next]
        SW.empty = some (rs, s) ∧
      ∃ e ∈ s.items, ¬ (0 ≤ e.EffectiveWeight ∧ e.EffectiveWeight ≤ e.Weight)) ∧
    (∃ rs s, SW.calls unbounded
        [Op.Add (Iface.str "a") (-1), Op.Add (Iface.str "b") (-2), Op.Next]
        SW.empty = some (rs, s) ∧
      ∃ e ∈ s.items, ¬ (0 ≤ e.EffectiveWeight ∧ e.EffectiveWeight ≤ e.Weight)) :=
  ⟨⟨[],
      { items := [{ Item := Iface.str "a", Weight := -1, CurrentWeight := 0,
                    EffectiveWeight := -1 }], n := 1 },
      by decide,
      { Item := Iface.str "a", Weight := -1, CurrentWeight := 0, EffectiveWeight := -1 },
      by decide, by decide⟩,
   ⟨[Iface.str "a"],
      { items := [{ Item := Iface.str "a", Weight := -1, CurrentWeight := 2,
                    EffectiveWeight := -1 },
                  { Item := Iface.str "b", Weight := -2, CurrentWeight := -2,
                    EffectiveWeight := -2 }], n := 2 },
      by decide,
      { Item := Iface.str "a", Weight := -1, CurrentWeight := 2, EffectiveWeight := -1 },
      by decide, by decide⟩,
   ⟨[Iface.str "a"],
      { items := [{ Item := Iface.str "a", Weight := -1, CurrentWeight := 2,
                    EffectiveWeight := -1 },
                  { Item := Iface.str "b", Weight := -2, CurrentWeight := -2,
                    EffectiveWeight := -2 }], n := 2 },
      by decide,
      { Item := Iface.str "a", Weight := -1, CurrentWeight := 2, EffectiveWeight := -1 },
      by decide, by decide⟩⟩

/-- C16 as amended: in every state reached from the empty selector by any sequence
of Add, Remove, RemoveAll, Reset, SetWeight and Next calls, hence immediately
after any Next call and any Reset call, every candidate satisfies effectiveWeight
<= weight, and 0 <= effectiveWeight holds exactly for the candidates whose weight
is >= 0. This holds for every reduction `int`, so in the Go type int and over
unbounded integers. -/
theorem effective_range_reachable (int : Int → Int) (ops : List Op) (rs : List Iface)
    (s : SW) (h : SW.calls int ops SW.empty = some (rs, s)) :
    ∀ e ∈ s.items, e.EffectiveWeight ≤ e.Weight ∧
      (0 ≤ e.EffectiveWeight ↔ 0 ≤ e.Weight) := by
  have hinv := (calls_invariant ops SW.empty s rs h rfl (by intro e he; cases he)).2
  intro e he
  rw [hinv e he]
  exact ⟨le_refl _, Iff.rfl⟩

/-- Instance of the amended C16 after Add, Add, Next, SetWeight, Next, in the Go
type int. -/
theorem effective_range_reachable_witness :
    SW.calls int64 [Op.Add (Iface.str "a") 5, Op.Add (Iface.str "b") 1, Op.Next,
        Op.SetWeight [{ ID := "b", Weight := 3 }, { ID := "c", Weight := -2 }], Op.Next]
        SW.empty
      = some ([Iface.str "a", Iface.str "b"],
          { items := [{ Item := Iface.str "b", Weight := 3, CurrentWeight := 3,
                        EffectiveWeight := 3 },
                      { Item := Iface.str "c", Weight := -2, CurrentWeight := -2,
                        EffectiveWeight := -2 }], n := 2 }) ∧
    ∀ e ∈ [({ Item := Iface.str "b", Weight := 3, CurrentWeight := 3,
              EffectiveWeight := 3 } : smoothWeighted),
           { Item := Iface.str "c", Weight := -2, CurrentWeight := -2,
             EffectiveWeight := -2 }],
      e.EffectiveWeight ≤ e.Weight ∧ (0 ≤ e.EffectiveWeight ↔ 0 ≤ e.Weight) :=
  ⟨by decide,
   effective_range_reachable int64
    [Op.Add (Iface.str "a") 5, Op.Add (Iface.str "b") 1, Op.Next,
      Op.SetWeight [{ ID := "b", Weight := 3 }, { ID := "c", Weight := -2 }], Op.Next]
    [Iface.str "a", Iface.str "b"]
    { items := [{ Item := Iface.str "b", Weight := 3, CurrentWeight := 3,
                  EffectiveWeight := 3 },
                { Item := Iface.str "c", Weight := -2, CurrentWeight := -2,
                  EffectiveWeight := -2 }], n := 2 }
    (by decide)⟩

/-- C17, the claim as stated fails for sums that leave the range of the Go type
int: after Add(a, 2^63 - 1), Add(b, 2^63 - 1) and one Next the selector holds a
with currentWeight -(2^63 - 1) and b with currentWeight 2^63 - 1, both with
effectiveWeight 2^63 - 1; currentWeight + effectiveWeight is 0 for a and
2^64 - 2 for b, so the claim names b, but the sum of b wraps to -2 and Next
returns a. -/
theorem selection_round_counterexample :
    SW.calls int64 [Op.Add (Iface.str "a") 9223372036854775807,
        Op.Add (Iface.str "b") 9223372036854775807, Op.Next] SW.empty
      = some ([Iface.str "a"],
          { items := [{ Item := Iface.str "a", Weight := 9223372036854775807,
                        CurrentWeight := -9223372036854775807,
                        EffectiveWeight := 9223372036854775807 },
                      { Item := Iface.str "b", Weight := 9223372036854775807,
                        CurrentWeight := 9223372036854775807,
                        EffectiveWeight := 9223372036854775807 }], n := 2 }) ∧
    (-9223372036854775807 + 9223372036854775807 : Int)
      < 9223372036854775807 + 9223372036854775807 ∧
    SW.Next int64
        { items := [{ Item := Iface.str "a", Weight := 9223372036854775807,
                      CurrentWeight := -9223372036854775807,
                      EffectiveWeight := 9223372036854775807 },
                    { Item := Iface.str "b", Weight := 9223372036854775807,
                      CurrentWeight := 9223372036854775807,
                      EffectiveWeight := 9223372036854775807 }], n := 2 }
      = some (Iface.str "a",
          { items := [{ Item := Iface.str "a", Weight := 9223372036854775807,
                        CurrentWeight := 2,
                        EffectiveWeight := 9223372036854775807 },
                      { Item := Iface.str "b", Weight := 9223372036854775807,
                        CurrentWeight := -2,
                        EffectiveWeight := 9223372036854775807 }], n := 2 }) := by
  decide

/-- C17 as amended (one selection round, the sums taken in the type int): let
`int` reduce an exact result to the type, `int64` for the Go type (wrap-around at
64 bits). For every selector state with at least two entries and a count equal to
their number (any integer weight, currentWeight and effectiveWeight), the entries
split as pre ++ x :: post where x is the first entry attaining the maximum of
int(currentWeight + effectiveWeight); Next returns the identity of x; after the
call every other entry has currentWeight = int(old currentWeight + old
effectiveWeight), x has int of that value minus the total, the total being the
running int sum of all old effectiveWeights; every effectiveWeight is increased
by 1 exactly when it was strictly below the weight, and identities, weights,
order and count are unchanged. Over unbounded integers (`int` the identity) this
is the claim as stated. -/
theorem next_selection_round (int : Int → Int) (s : SW) (hn : s.n = s.items.length)
    (h2 : 2 ≤ s.items.length) :
    ∃ pre x post, s.items = pre ++ x :: post ∧
      (∀ e ∈ pre, int (e.CurrentWeight + e.EffectiveWeight)
        < int (x.CurrentWeight + x.EffectiveWeight)) ∧
      (∀ e ∈ post, int (e.CurrentWeight + e.EffectiveWeight)
        ≤ int (x.CurrentWeight + x.EffectiveWeight)) ∧
      SW.Next int s = some (x.Item,
        { items :=
            pre.map (fun e =>
              { Item := e.Item, Weight := e.Weight,
                CurrentWeight := int (e.CurrentWeight + e.EffectiveWeight),
                EffectiveWeight := if e.EffectiveWeight < e.Weight
                  then e.EffectiveWeight + 1 else e.EffectiveWeight }) ++
            { Item := x.Item, Weight := x.Weight,
              CurrentWeight := int (int (x.CurrentWeight + x.EffectiveWeight)
                - s.items.foldl (fun t e => int (t + e.EffectiveWeight)) 0),
              EffectiveWeight := if x.EffectiveWeight < x.Weight
                then x.EffectiveWeight + 1 else x.EffectiveWeight } ::
            post.map (fun e =>
              { Item := e.Item, Weight := e.Weight,
                CurrentWeight := int (e.CurrentWeight + e.EffectiveWeight),
                EffectiveWeight := if e.EffectiveWeight < e.Weight
                  then e.EffectiveWeight + 1 else e.EffectiveWeight }),
          n := s.n }) ∧
      (int = unbounded →
        (∀ e ∈ pre, e.CurrentWeight + e.EffectiveWeight
          < x.CurrentWeight + x.EffectiveWeight) ∧
        (∀ e ∈ post, e.CurrentWeight + e.EffectiveWeight
          ≤ x.CurrentWeight + x.EffectiveWeight) ∧
        s.items.foldl (fun t e => int (t + e.EffectiveWeight)) 0
          = (s.items.map (fun e => e.EffectiveWeight)).sum) := by
  obtain ⟨items, n⟩ := s
  simp only at hn h2
  have hne : items ≠ [] := by
    intro h; subst h; simp at h2
  have h0 : ¬ n = 0 := by omega
  have h1 : ¬ n = 1 := by omega
  obtain ⟨pre, x, post, hdec, hr, hpre, hpost⟩ := @nextSmoothWeighted_spec int items hne
  have hpre2 : ∀ e ∈ pre, int (e.CurrentWeight + e.EffectiveWeight)
      < int (x.CurrentWeight + x.EffectiveWeight) := by
    intro e he
    have := hpre e he
    rwa [bump_CurrentWeight, bump_CurrentWeight] at this
  have hpost2 : ∀ e ∈ post, int (e.CurrentWeight + e.EffectiveWeight)
      ≤ int (x.CurrentWeight + x.EffectiveWeight) := by
    intro e he
    have := hpost e he
    rwa [bump_CurrentWeight, bump_CurrentWeight] at this
  refine ⟨pre, x, post, hdec, hpre2, hpost2, ?_, ?_⟩
  · have hb : bump int = fun e : smoothWeighted =>
        { Item := e.Item, Weight := e.Weight,
          CurrentWeight := int (e.CurrentWeight + e.EffectiveWeight),
          EffectiveWeight := if e.EffectiveWeight < e.Weight
            then e.EffectiveWeight + 1 else e.EffectiveWeight } := by
      funext e
      exact bump_eq e
    simp only [SW.Next, SW.nextWeighted, h0, h1, if_false, hr, settle_eq, totalInt, hb]
  · intro hu
    subst hu
    refine ⟨hpre2, hpost2, ?_⟩
    have := totalInt_unbounded 0 items
    simpa [totalInt, totalEffective] using this

/-- Instance of the amended C17 in the Go type int: entries a (weight 5, current
0, effective 3), b (4, 1, 4) and c (1, 4, 1), count 3; the round takes place and
Next returns. -/
theorem next_selection_round_witness :
    ∃ r s1, SW.Next int64
        { items := [{ Item := Iface.str "a", Weight := 5, CurrentWeight := 0,
                      EffectiveWeight := 3 },
                    { Item := Iface.str "b", Weight := 4, CurrentWeight := 1,
                      EffectiveWeight := 4 },
                    { Item := Iface.str "c", Weight := 1, CurrentWeight := 4,
                      EffectiveWeight := 1 }], n := 3 } = some (r, s1) :=
  match next_selection_round int64
    { items := [{ Item := Iface.str "a", Weight := 5, CurrentWeight := 0,
                  EffectiveWeight := 3 },
                { Item := Iface.str "b", Weight := 4, CurrentWeight := 1,
                  EffectiveWeight := 4 },
                { Item := Iface.str "c", Weight := 1, CurrentWeight := 4,
                  EffectiveWeight := 1 }], n := 3 } (by decide) (by decide) with
  | ⟨_, _, _, _, _, _, hnext, _⟩ => ⟨_, _, hnext⟩

/-- C18, the claim as stated fails in its last part: after Add of the nil
interface as identity, with weight 1, the selector holds one entry and Next
returns nil, the value of the no-candidate result (in the Go type int; no
arithmetic is involved). -/
theorem next_nil_counterexample :
    ∃ rs s, SW.calls int64 [Op.Add Iface.nil 1] SW.empty = some (rs, s) ∧ s.items ≠ [] ∧
      ∃ s1, SW.Next int64 s = some (Iface.nil, s1) :=
  ⟨[],
    { items := [{ Item := Iface.nil, Weight := 1, CurrentWeight := 0,
                  EffectiveWeight := 1 }], n := 1 },
    by decide, by decide,
    { items := [{ Item := Iface.nil, Weight := 1, CurrentWeight := 0,
                  EffectiveWeight := 1 }], n := 1 },
    by decide⟩

/-- C18 as amended: every sequence of Add, Remove, RemoveAll, Reset, SetWeight and
Next calls on the empty selector runs without a panic, and in every state it
reaches the stored count equals the number of entries; consequently Next does not
panic there (the access to the first entry when the count is 1 is in range),
nextWeighted returns nil exactly when there is no entry, and Next returns nil
exactly when there is no entry provided no entry has the nil interface as its
identity. This holds for every reduction `int`, so in the Go type int and over
unbounded integers. -/
theorem count_matches_entries (int : Int → Int) (ops : List Op) :
    (∃ rs s, SW.calls int ops SW.empty = some (rs, s)) ∧
    ∀ rs s, SW.calls int ops SW.empty = some (rs, s) →
      s.n = s.items.length ∧
      (∃ r s1, SW.Next int s = some (r, s1)) ∧
      ((∃ s1, SW.nextWeighted int s = some (none, s1)) ↔ s.items = []) ∧
      ((∀ e ∈ s.items, e.Item ≠ Iface.nil) →
        ((∃ s1, SW.Next int s = some (Iface.nil, s1)) ↔ s.items = [])) := by
  refine ⟨calls_total ops SW.empty rfl (by intro e he; cases he), ?_⟩
  intro rs s h
  have hn := (calls_invariant ops SW.empty s rs h rfl (by intro e he; cases he)).1
  refine ⟨hn, ?_, nextWeighted_nil_iff s hn, next_nil_iff s hn⟩
  obtain ⟨r, s1, hr, -, -⟩ := @next_frame int s hn
  exact ⟨r, s1, hr⟩

/-- Instance of the amended C18 after Add, Add, Remove, Next, in the Go type int:
one entry, count 1. -/
theorem count_matches_entries_witness :
    SW.calls int64 [Op.Add (Iface.str "a") 5, Op.Add (Iface.str "b") 1,
        Op.Remove (Iface.str "a"), Op.Next] SW.empty
      = some ([Iface.str "b"],
          { items := [{ Item := Iface.str "b", Weight := 1, CurrentWeight := 0,
                        EffectiveWeight := 1 }], n := 1 }) ∧
    (1 : Int) = ((1 : Nat) : Int) :=
  ⟨by decide,
   ((count_matches_entries int64
      [Op.Add (Iface.str "a") 5, Op.Add (Iface.str "b") 1,
        Op.Remove (Iface.str "a"), Op.Next]).2
      [Iface.str "b"]
      { items := [{ Item := Iface.str "b", Weight := 1, CurrentWeight := 0,
                    EffectiveWeight := 1 }], n := 1 }
      (by decide)).1⟩

/-- C19 (effective weight never departs from the nominal weight): in every state
reached from the empty selector by any sequence of Add, Remove, RemoveAll, Reset,
SetWeight and Next calls (any integer weights), every entry has effectiveWeight =
weight; hence in a selection round the test effectiveWeight < weight is false for
every entry, the loop body leaves every effectiveWeight as it is, and the total
computed by the round, which is subtracted from the winner, is the sum of the
weights of all entries: the running sum taken in the arithmetic `int` of the
round, which over unbounded integers is the sum itself. This holds for every
reduction `int`, so in the Go type int and over unbounded integers. -/
theorem effective_equals_weight (int : Int → Int) (ops : List Op) (rs : List Iface) (s : SW)
    (h : SW.calls int ops SW.empty = some (rs, s)) :
    (∀ e ∈ s.items, e.EffectiveWeight = e.Weight) ∧
    (∀ e ∈ s.items, ¬ e.EffectiveWeight < e.Weight) ∧
    (∀ e ∈ s.items, (bump int e).EffectiveWeight = e.EffectiveWeight) ∧
    (nextSmoothWeightedLoop int s.items 0 0 none).2.1
      = s.items.foldl (fun t e => int (t + e.Weight)) 0 ∧
    (nextSmoothWeightedLoop unbounded s.items 0 0 none).2.1
      = (s.items.map (fun e => e.Weight)).sum := by
  have hinv := (calls_invariant ops SW.empty s rs h rfl (by intro e he; cases he)).2
  refine ⟨hinv, ?_, ?_, ?_, ?_⟩
  · intro e he
    rw [hinv e he]
    exact lt_irrefl _
  · intro e he
    exact bump_EffectiveWeight e (hinv e he)
  · rw [loop_total, totalInt]
    have hfold : ∀ (l : List smoothWeighted) (t : Int),
        (∀ e ∈ l, e.EffectiveWeight = e.Weight) →
        l.foldl (fun acc e => int (acc + e.EffectiveWeight)) t
          = l.foldl (fun acc e => int (acc + e.Weight)) t := by
      intro l
      induction l with
      | nil => intro t _; rfl
      | cons a rest ih =>
        intro t hl
        simp only [List.foldl_cons]
        rw [hl a (List.mem_cons_self _ _)]
        exact ih _ (fun e he => hl e (List.mem_cons_of_mem _ he))
    exact hfold s.items 0 hinv
  · rw [loop_total, totalInt_unbounded, zero_add, totalEffective]
    congr 1
    exact List.map_congr_left hinv

/-- Instance of C19 after Add, Add, Next, SetWeight, Next, Reset, in the Go type
int. -/
theorem effective_equals_weight_witness :
    SW.calls int64 [Op.Add (Iface.str "a") 5, Op.Add (Iface.str "b") 1, Op.Next,
        Op.SetWeight [{ ID := "b", Weight := 3 }, { ID := "c", Weight := -2 }], Op.Next,
        Op.Reset] SW.empty
      = some ([Iface.str "a", Iface.str "b"],
          { items := [{ Item := Iface.str "b", Weight := 3, CurrentWeight := 0,
                        EffectiveWeight := 3 },
                      { Item := Iface.str "c", Weight := -2, CurrentWeight := 0,
                        EffectiveWeight := -2 }], n := 2 }) ∧
    ∀ e ∈ [({ Item := Iface.str "b", Weight := 3, CurrentWeight := 0,
              EffectiveWeight := 3 } : smoothWeighted),
           { Item := Iface.str "c", Weight := -2, CurrentWeight := 0,
             EffectiveWeight := -2 }],
      e.EffectiveWeight = e.Weight :=
  ⟨by decide,
   (effective_equals_weight int64
    [Op.Add (Iface.str "a") 5, Op.Add (Iface.str "b") 1, Op.Next,
      Op.SetWeight [{ ID := "b", Weight := 3 }, { ID := "c", Weight := -2 }], Op.Next,
      Op.Reset]
    [Iface.str "a", Iface.str "b"]
    { items := [{ Item := Iface.str "b", Weight := 3, CurrentWeight := 0,
                  EffectiveWeight := 3 },
                { Item := Iface.str "c", Weight := -2, CurrentWeight := 0,
                  EffectiveWeight := -2 }], n := 2 }
    (by decide)).1⟩

/-- C20 (SetWeight never introduces duplicate identities): for every selector
whose entries have pairwise distinct identities and every update list, also one
that names the same ID several times with any weights, after SetWeight the
entries still have pairwise distinct identities. -/
theorem SetWeight_keeps_distinct (s : SW) (ups : List WeightItem)
    (h : (s.items.map (fun e => e.Item)).Nodup) :
    ((s.SetWeight ups).items.map (fun e => e.Item)).Nodup :=
  SetWeight_nodup s ups h

/-- Instance of C20: an update list that names the new ID c three times and the
existing ID a twice. -/
theorem SetWeight_keeps_distinct_witness :
    ((SW.SetWeight
        { items := [{ Item := Iface.str "a", Weight := 5, CurrentWeight := 0,
                      EffectiveWeight := 5 },
                    { Item := Iface.str "b", Weight := 1, CurrentWeight := 0,
                      EffectiveWeight := 1 }], n := 2 }
        [{ ID := "c", Weight := 0 }, { ID := "a", Weight := 0 }, { ID := "c", Weight := 4 },
          { ID := "a", Weight := 2 }, { ID := "c", Weight := -1 }]).items.map
      (fun e => e.Item)).Nodup :=
  SetWeight_keeps_distinct
    { items := [{ Item := Iface.str "a", Weight := 5, CurrentWeight := 0,
                  EffectiveWeight := 5 },
                { Item := Iface.str "b", Weight := 1, CurrentWeight := 0,
                  EffectiveWeight := 1 }], n := 2 }
    [{ ID := "c", Weight := 0 }, { ID := "a", Weight := 0 }, { ID := "c", Weight := 4 },
      { ID := "a", Weight := 2 }, { ID := "c", Weight := -1 }]
    (by decide)

end Weighted
